import Mathlib

/-!
# Verified model of the Web-Data-Acquisition crawler

Shallow embedding of `src/web_crawler.py` (class `WebCrawler`) and of the URL
utilities in `src/crawler_utils.py`.  External capabilities (the `requests`
HTTP client, the Selenium renderer, the `BeautifulSoup` parser and
`urllib.parse.urljoin`) are modelled as an explicit environment of pure
functions; the functions of `urllib.parse` that the sources call directly
(`urlparse` and its components) are embedded faithfully following CPython's
`urllib/parse.py`, at ASCII granularity for the character-class tests.
Strings are modelled as `String` at the crawler layer and as `List Char`
inside the URL-parsing layer.
-/

namespace WebData

/-! ## URL parsing (`urllib.parse`, as called by the sources) -/

/-- Characters that `urllib.parse` allows inside a URL scheme
(`scheme_chars`): letters, digits and `+`, `-`, `.`. -/
def schemeChar (c : Char) : Bool :=
  c.isAlpha || c.isDigit || c == '+' || c == '-' || c == '.'

/-- Characters that terminate the network-location component
(`urllib.parse._splitnetloc` stops at the first of `/`, `?`, `#`). -/
def netlocStop (c : Char) : Bool :=
  c == '/' || c == '?' || c == '#'

/-- The scheme-splitting step of `urllib.parse.urlsplit`: if the text before
the first `:` is nonempty, starts with a letter and consists of scheme
characters, it is removed and lower-cased as the scheme; otherwise the scheme
is empty and the input is left alone. -/
def splitScheme (s : List Char) : List Char × List Char :=
  let pre := s.takeWhile (fun c => c != ':')
  let post := s.dropWhile (fun c => c != ':')
  if post ≠ [] ∧ pre ≠ [] ∧ (s.headD ' ').isAlpha ∧ pre.all schemeChar then
    (pre.map Char.toLower, post.tail)
  else ([], s)

/-- The netloc-splitting step of `urllib.parse.urlsplit`: when the remaining
text starts with `//`, the netloc runs up to the first `/`, `?` or `#`. -/
def splitNetloc : List Char → List Char × List Char
  | '/' :: '/' :: rest =>
    (rest.takeWhile (fun c => !netlocStop c), rest.dropWhile (fun c => !netlocStop c))
  | s => ([], s)

/-- Python's `s.split(d, 1)` specialised to one delimiter character, returning
`(before, after)`; `after` is empty when the delimiter does not occur.  Used
by `urlsplit` for the fragment (`#`) and the query (`?`). -/
def splitOnFirst (delim : Char) (s : List Char) : List Char × List Char :=
  (s.takeWhile (fun c => c != delim), (s.dropWhile (fun c => c != delim)).drop 1)

/-- Result of `urllib.parse.urlsplit`. -/
structure SplitUrl where
  scheme : List Char
  netloc : List Char
  path : List Char
  query : List Char
  fragment : List Char
deriving DecidableEq

/-- `urllib.parse.urlsplit`: scheme, then netloc, then fragment split before
query split.  (The IPv6-bracket and non-ASCII `ValueError` paths are not
modelled; the sources never catch them.) -/
def pyUrlsplit (s : List Char) : SplitUrl :=
  let p1 := splitScheme s
  let p2 := splitNetloc p1.2
  let p3 := splitOnFirst '#' p2.2
  let p4 := splitOnFirst '?' p3.1
  ⟨p1.1, p2.1, p4.1, p4.2, p3.2⟩

/-- The last path segment: the text after the last `/`. -/
def lastSeg (s : List Char) : List Char :=
  (s.reverse.takeWhile (fun c => c != '/')).reverse

/-- The prefix of the path up to and including the last `/`. -/
def throughLastSlash (s : List Char) : List Char :=
  (s.reverse.dropWhile (fun c => c != '/')).reverse

/-- `urllib.parse._splitparams`: parameters are split at the first `;` of the
last path segment (or of the whole string when it has no `/`). -/
def splitParams (s : List Char) : List Char × List Char :=
  if '/' ∈ s then
    let seg := lastSeg s
    if ';' ∈ seg then
      (throughLastSlash s ++ seg.takeWhile (fun c => c != ';'),
       (seg.dropWhile (fun c => c != ';')).drop 1)
    else (s, [])
  else splitOnFirst ';' s

/-- Result of `urllib.parse.urlparse`. -/
structure ParsedUrl where
  scheme : List Char
  netloc : List Char
  path : List Char
  params : List Char
  query : List Char
  fragment : List Char
deriving DecidableEq

/-- The schemes for which `urlparse` splits parameters
(`urllib.parse.uses_params`). -/
def usesParams : List (List Char) :=
  ["", "ftp", "hdl", "prospero", "http", "imap", "https", "shttp", "rtsp",
   "rtsps", "rtspu", "sip", "sips", "mms", "sftp", "tel"].map String.data

/-- `urllib.parse.urlparse`: `urlsplit` followed by the parameter split when
the scheme uses parameters and the path contains a `;`. -/
def pyUrlparse (s : List Char) : ParsedUrl :=
  let r := pyUrlsplit s
  if r.scheme ∈ usesParams ∧ ';' ∈ r.path then
    let pp := splitParams r.path
    ⟨r.scheme, r.netloc, pp.1, pp.2, r.query, r.fragment⟩
  else ⟨r.scheme, r.netloc, r.path, [], r.query, r.fragment⟩

/-- `"http://"` as a character list. -/
def httpColonSlash : List Char := "http://".data

/-- `"https://"` as a character list. -/
def httpsColonSlash : List Char := "https://".data

/-- Python's `url.startswith(('http://', 'https://'))`, on character lists. -/
def isHttpList (u : List Char) : Bool :=
  httpColonSlash.isPrefixOf u || httpsColonSlash.isPrefixOf u

/-- The parse-and-rebuild core of `crawler_utils.normalize_url`, applied after
the scheme default: rebuild `scheme://netloc`, then the path (`/` when the
parsed path is empty), then `?query` when the parsed query is nonempty. -/
def normBuild (v : List Char) : List Char :=
  let p := pyUrlparse v
  let base := p.scheme ++ "://".data ++ p.netloc
  let withPath := if p.path = [] then base ++ ['/'] else base ++ p.path
  if p.query ≠ [] then withPath ++ '?' :: p.query else withPath

/-- `crawler_utils.normalize_url` on character lists: prepend `https://` when
the URL starts with neither `http://` nor `https://`, then parse and rebuild
without fragment and parameters. -/
def normalizeChars (u : List Char) : List Char :=
  normBuild (if isHttpList u then u else httpsColonSlash ++ u)

/-- `crawler_utils.normalize_url`. -/
def normalize_url (u : String) : String :=
  ⟨normalizeChars u.data⟩

/-- `urllib.parse.urlparse(u).netloc`, as used by `WebCrawler.extract_links`
and `crawler_utils.get_domain`. -/
def urlNetloc (u : String) : String :=
  ⟨(pyUrlsplit u.data).netloc⟩

/-- Python's `url.startswith(('http://', 'https://'))` on strings, as used by
`WebCrawler.extract_links` and `normalize_url`. -/
def isHttpUrl (u : String) : Bool :=
  isHttpList u.data

/-! ## External capabilities

The crawler's effectful collaborators are modelled as an environment of pure
functions, as the claims fix fetching to be deterministic: `http` models
`requests.get` (`none` for a raised `RequestException`, otherwise status code
and body), `selenium` models a rendered fetch (`none` when navigation raises
`TimeoutException`/`WebDriverException`, otherwise the page source), `parse`
models `BeautifulSoup(content, 'html.parser')` and `urljoin` models
`urllib.parse.urljoin`. -/

/-- A parsed document, abstracting `BeautifulSoup`: `select` returns the
stripped text of the nodes matching a CSS selector in document order
(`soup.select(sel)` + `get_text(strip=True)`), and `hrefs` lists the `href`
attributes of the `<a href=...>` tags in document order
(`soup.find_all('a', href=True)`). -/
structure Html where
  select : String → List String
  hrefs : List String

/-- The environment of external capabilities. -/
structure Env where
  http : String → Option (Nat × String)
  selenium : String → Option String
  parse : String → Html
  urljoin : String → String → String

/-! ## Fetcher (`WebCrawler._get_page_content`) -/

/-- The mutable crawler attributes that `_get_page_content` can see
(`self.use_selenium`); threading this state makes it provable that the method
leaves it unchanged. -/
structure MState where
  useSelenium : Bool
deriving DecidableEq

/-- `WebCrawler._get_page_content`, state-threaded.  In rendered mode a
navigation failure falls back to a plain `requests.get` of the same URL; in
either mode a plain fetch succeeds exactly on status 200.  The method never
assigns `self.use_selenium`, so the state is returned unchanged. -/
def get_page_content_s (env : Env) (ms : MState) (url : String) :
    Option String × MState :=
  if ms.useSelenium then
    match env.selenium url with
    | some content => (some content, ms)
    | none =>
      match env.http url with
      | some (code, body) => (if code = 200 then some body else none, ms)
      | none => (none, ms)
  else
    match env.http url with
    | some (code, body) => (if code = 200 then some body else none, ms)
    | none => (none, ms)

/-- `WebCrawler._get_page_content` as a pure function of the `use_selenium`
flag: `some content` for `(content, True)`, `none` for `(None, False)`. -/
def get_page_content (env : Env) (us : Bool) (url : String) : Option String :=
  (get_page_content_s env ⟨us⟩ url).1

/-! ## Extractor (`WebCrawler.extract_data`) -/

/-- An extracted field value: `data[field]` is `None`, a single string, or a
list of strings. -/
inductive Value where
  | null : Value
  | str : String → Value
  | strs : List String → Value
deriving DecidableEq

/-- An extracted record models the Python dict `data`: insertion-ordered keys
with in-place overwrite. -/
abbrev Record := List (String × Value)

/-- `data[field] = v` on an insertion-ordered dict: overwrite in place when
the key exists, append otherwise. -/
def dictInsert : Record → String → Value → Record
  | [], f, v => [(f, v)]
  | (g, w) :: rest, f, v =>
    if g = f then (f, v) :: rest else (g, w) :: dictInsert rest f v

/-- `data[field]` lookup. -/
def dictGet : Record → String → Option Value
  | [], _ => none
  | (g, w) :: rest, f => if g = f then some w else dictGet rest f

/-- The field loop body of `extract_data`: query all matches, collect their
stripped texts, then unwrap a singleton list to the bare string; no match
stores `None`. -/
def selectValue (page : Html) (sel : String) : Value :=
  match page.select sel with
  | [] => Value.null
  | [t] => Value.str t
  | ts => Value.strs ts

/-- `WebCrawler.extract_data`: `None` when the fetch did not succeed,
otherwise the dict seeded with `{'url': url}` and one value per
`(field, selector)` pair. -/
def extract_data (env : Env) (us : Bool) (url : String)
    (selectors : List (String × String)) : Option Record :=
  match get_page_content env us url with
  | none => none
  | some content =>
    let soup := env.parse content
    some (selectors.foldl
      (fun data fs => dictInsert data fs.1 (selectValue soup fs.2))
      [("url", Value.str url)])

/-! ## Link discoverer (`WebCrawler.extract_links`) -/

/-- `WebCrawler.extract_links`: empty on fetch failure; otherwise each href is
resolved against the page URL with `urljoin`, non-HTTP(S) results are dropped,
and under domain restriction any result whose netloc differs from the fetched
URL's netloc is dropped. -/
def extract_links (env : Env) (us : Bool) (url : String)
    (restrictDomain : Bool) : List String :=
  match get_page_content env us url with
  | none => []
  | some content =>
    let soup := env.parse content
    let baseDomain := urlNetloc url
    soup.hrefs.filterMap (fun href =>
      let full := env.urljoin url href
      if isHttpUrl full ∧ (restrictDomain → urlNetloc full = baseDomain) then
        some full
      else none)

/-! ## Sequential traversal (`WebCrawler.crawl`) -/

/-- The state of one `crawl` loop iteration.  `toVisit` is the FIFO frontier
of `(url, depth)` tasks, `visited` models the instance attribute
`self.visited_urls` (a set, represented as a duplicate-free list), `allData`
is the accumulated result.  Two ghost fields record what the run did:
`fetched` logs every URL passed to `_get_page_content`, in call order, and
`processedTasks` logs every task that was dequeued and not skipped. -/
structure CState where
  toVisit : List (String × Nat)
  visited : List String
  allData : List Record
  fetched : List String
  processedTasks : List (String × Nat)
deriving DecidableEq

/-- One iteration of the `while to_visit:` loop in `WebCrawler.crawl`: pop the
head task; skip it when the URL was already visited or the depth exceeds
`max_depth`; otherwise mark it visited, extract data when selectors were
given (one fetch), and below the depth bound extract links (a second fetch)
and enqueue those not yet visited. -/
def crawlStep (env : Env) (us : Bool) (selectors : List (String × String))
    (restrictDomain : Bool) (maxDepth : Nat) (s : CState) : CState :=
  match s.toVisit with
  | [] => s
  | (url, depth) :: rest =>
    if url ∈ s.visited ∨ maxDepth < depth then
      { s with toVisit := rest }
    else
      let visited' := url :: s.visited
      let dataStep :
          Option Record × List String :=
        if selectors ≠ [] then
          (extract_data env us url selectors, s.fetched ++ [url])
        else (none, s.fetched)
      let allData' := match dataStep.1 with
        | some d => s.allData ++ [d]
        | none => s.allData
      if depth < maxDepth then
        let links := extract_links env us url restrictDomain
        let newTasks := (links.filter (fun l => l ∉ visited')).map
          (fun l => (l, depth + 1))
        { toVisit := rest ++ newTasks, visited := visited',
          allData := allData', fetched := dataStep.2 ++ [url],
          processedTasks := s.processedTasks ++ [(url, depth)] }
      else
        { toVisit := rest, visited := visited', allData := allData',
          fetched := dataStep.2,
          processedTasks := s.processedTasks ++ [(url, depth)] }

/-- The `while to_visit:` loop of `WebCrawler.crawl`, fuelled: `none` when the
fuel runs out before the frontier empties. -/
def crawlLoop (env : Env) (us : Bool) (selectors : List (String × String))
    (restrictDomain : Bool) (maxDepth : Nat) : Nat → CState → Option CState
  | 0, s => if s.toVisit = [] then some s else none
  | fuel + 1, s =>
    if s.toVisit = [] then some s
    else crawlLoop env us selectors restrictDomain maxDepth fuel
      (crawlStep env us selectors restrictDomain maxDepth s)

/-- `WebCrawler.crawl`.  `visited0` is the content of the instance attribute
`self.visited_urls` when the method is entered (empty for a freshly
constructed crawler); the queue is seeded with `(start_url, 0)` as given.
The returned state carries the result list `allData` and the final
`visited`, which persists on the crawler object. -/
def crawl (env : Env) (us : Bool) (visited0 : List String) (startUrl : String)
    (maxDepth : Nat) (selectors : List (String × String))
    (restrictDomain : Bool) (fuel : Nat) : Option CState :=
  crawlLoop env us selectors restrictDomain maxDepth fuel
    ⟨[(startUrl, 0)], visited0, [], [], []⟩

/-! ## Wave-batched traversal (`WebCrawler.parallel_crawl`)

`parallel_crawl` pulls batches of up to `max_workers` tasks and maps
`process_url` over each batch with a thread pool.  The embedding runs the
batch sequentially in batch order, which is exact when `max_workers = 1`
(every batch is a singleton); for larger batches it fixes one deterministic
interleaving of the pool. -/

/-- The link loop of `process_url`: links not yet in the (locally shared)
visited set are added to it at enqueue time and collected as
`(link, depth+1)` tasks, in order. -/
def enqueueLinks (depth1 : Nat) : List String → List String →
    List (String × Nat) × List String
  | [], visited => ([], visited)
  | l :: ls, visited =>
    if l ∈ visited then enqueueLinks depth1 ls visited
    else
      let r := enqueueLinks depth1 ls (l :: visited)
      ((l, depth1) :: r.1, r.2)

/-- `process_url` inside `WebCrawler.parallel_crawl`: `none` past the depth
bound; otherwise the optional record and the newly enqueued tasks, together
with the updated run-local visited set. -/
def processUrl (env : Env) (us : Bool) (selectors : List (String × String))
    (restrictDomain : Bool) (maxDepth : Nat) (visited : List String)
    (t : String × Nat) :
    Option (Option Record × List (String × Nat)) × List String :=
  if maxDepth < t.2 then (none, visited)
  else
    let data := if selectors ≠ [] then extract_data env us t.1 selectors
      else none
    if t.2 < maxDepth then
      let links := extract_links env us t.1 restrictDomain
      let r := enqueueLinks (t.2 + 1) links visited
      (some (data, r.1), r.2)
    else (some (data, []), visited)

/-- `executor.map(process_url, batch)`, sequentialised in batch order. -/
def runBatch (env : Env) (us : Bool) (selectors : List (String × String))
    (restrictDomain : Bool) (maxDepth : Nat) :
    List (String × Nat) → List String →
    List (Option (Option Record × List (String × Nat))) × List String
  | [], visited => ([], visited)
  | t :: ts, visited =>
    let r := processUrl env us selectors restrictDomain maxDepth visited t
    let rs := runBatch env us selectors restrictDomain maxDepth ts r.2
    (r.1 :: rs.1, rs.2)

/-- The `for result in results:` loop of `parallel_crawl`: skipped tasks
contribute nothing; otherwise the record (when present) is appended and the
new tasks extend the frontier. -/
def foldResults : List (Option (Option Record × List (String × Nat))) →
    List Record → List (String × Nat) → List Record × List (String × Nat)
  | [], acc, queue => (acc, queue)
  | none :: rs, acc, queue => foldResults rs acc queue
  | some (data, newUrls) :: rs, acc, queue =>
    foldResults rs
      (match data with | some d => acc ++ [d] | none => acc)
      (queue ++ newUrls)

/-- The run-local state of `parallel_crawl`: its own frontier, its own
visited set and its own result list. -/
structure PState where
  toVisit : List (String × Nat)
  visited : List String
  allData : List Record
deriving DecidableEq

/-- The `while to_visit:` loop of `WebCrawler.parallel_crawl`, fuelled: pull a
batch of `min max_workers (queue length)` tasks, process it, fold the results
back into the state. -/
def parallelLoop (env : Env) (us : Bool) (selectors : List (String × String))
    (restrictDomain : Bool) (maxDepth : Nat) (maxWorkers : Nat) :
    Nat → PState → Option (List Record)
  | 0, s => if s.toVisit = [] then some s.allData else none
  | fuel + 1, s =>
    if s.toVisit = [] then some s.allData
    else
      let k := min maxWorkers s.toVisit.length
      let batch := s.toVisit.take k
      let rest := s.toVisit.drop k
      let br := runBatch env us selectors restrictDomain maxDepth batch
        s.visited
      let fr := foldResults br.1 s.allData rest
      parallelLoop env us selectors restrictDomain maxDepth maxWorkers fuel
        ⟨fr.2, br.2, fr.1⟩

/-- `WebCrawler.parallel_crawl`: a fresh run-local visited set seeded with the
start URL, a fresh frontier `[(start_url, 0)]`, and wave-batched processing.
The instance attribute `self.visited_urls` is never read or written. -/
def parallel_crawl (env : Env) (us : Bool) (maxWorkers : Nat)
    (startUrl : String) (maxDepth : Nat)
    (selectors : List (String × String)) (restrictDomain : Bool)
    (fuel : Nat) : Option (List Record) :=
  parallelLoop env us selectors restrictDomain maxDepth maxWorkers fuel
    ⟨[(startUrl, 0)], [startUrl], []⟩

/-! ## Concrete test environments

Small deterministic environments used to instantiate the theorems on concrete
inputs.  `envA` serves a site at `https://a` whose front page links twice to
`https://a/b`, once to a failing page `https://a/c`, once off-site and once
over `ftp`; `envB` serves a front page at `https://a` linking to
`https://a/`, a different string with the same normalization; `envC` serves a
single page with no links at `https://s`.  `urljoin` is the identity on the
href because every href in these environments is already absolute, matching
`urllib.parse.urljoin`. -/

/-- Test site A. -/
def envA : Env where
  http := fun u =>
    if u = "https://a" then some (200, "PA")
    else if u = "https://a/b" then some (200, "PB")
    else if u = "https://a/c" then some (500, "ERR")
    else none
  selenium := fun _ => none
  parse := fun c =>
    if c = "PA" then
      ⟨fun sel => if sel = "h1" then ["Hello"] else [],
       ["https://a/b", "https://a/b", "https://a/c", "https://other/x",
        "ftp://a/z"]⟩
    else if c = "PB" then ⟨fun _ => ["x", "y"], ["https://a"]⟩
    else ⟨fun _ => [], []⟩
  urljoin := fun _ href => href

/-- Test site B: two URL strings with equal normalizations. -/
def envB : Env where
  http := fun u =>
    if u = "https://a" then some (200, "PA")
    else if u = "https://a/" then some (200, "PB")
    else none
  selenium := fun _ => none
  parse := fun c =>
    if c = "PA" then ⟨fun _ => ["t1"], ["https://a/"]⟩
    else ⟨fun _ => ["t2"], []⟩
  urljoin := fun _ href => href

/-- Test site C: one page, no links. -/
def envC : Env where
  http := fun u => if u = "https://s" then some (200, "P") else none
  selenium := fun _ => none
  parse := fun _ => ⟨fun sel => if sel = "q" then ["x"] else [], []⟩
  urljoin := fun _ href => href

/-! ## Verification predicates -/

/-- Run invariant of `crawl`: the visited set is duplicate-free, the
processed tasks have duplicate-free URLs, every processed URL was marked
visited, no URL was ever fetched more than twice, and an unvisited URL was
neither fetched nor processed. -/
def VisitInv (s : CState) : Prop :=
  s.visited.Nodup ∧
  (s.processedTasks.map Prod.fst).Nodup ∧
  (∀ u ∈ s.processedTasks.map Prod.fst, u ∈ s.visited) ∧
  (∀ u, s.fetched.count u ≤ 2) ∧
  (∀ u, u ∉ s.visited →
    s.fetched.count u = 0 ∧ u ∉ s.processedTasks.map Prod.fst)

/-- All queued tasks respect the depth bound. -/
def DepthLE (md : Nat) (q : List (String × Nat)) : Prop :=
  ∀ t ∈ q, t.2 ≤ md

/-- The `?query` tail of a rebuilt URL, empty when the query is empty. -/
def queryPart (query : List Char) : List Char :=
  if query = [] then [] else '?' :: query

/-- The output shape of `normalize_url`:
`scheme://netloc` + path + optional `?query`. -/
def assembleUrl (scheme netloc path query : List Char) : List Char :=
  scheme ++ "://".data ++ netloc ++ path ++ queryPart query

/-- The netloc that `urlsplit` reads off the text after `scheme://`. -/
def nlOf (w : List Char) : List Char :=
  w.takeWhile (fun c => !netlocStop c)

/-- The text after the netloc. -/
def restOf (w : List Char) : List Char :=
  w.dropWhile (fun c => !netlocStop c)

/-- The text after the netloc with the fragment stripped. -/
def preFragOf (w : List Char) : List Char :=
  (restOf w).takeWhile (fun c => c != '#')

/-- The raw path component (before the parameter split). -/
def prawOf (w : List Char) : List Char :=
  (preFragOf w).takeWhile (fun c => c != '?')

/-- The query component. -/
def queryOf (w : List Char) : List Char :=
  ((preFragOf w).dropWhile (fun c => c != '?')).drop 1

/-- The path component after the parameter split (the scheme is http(s),
which uses parameters). -/
def pathOf (w : List Char) : List Char :=
  if ';' ∈ prawOf w then (splitParams (prawOf w)).1 else prawOf w

/-- The path as rebuilt by `normalize_url`: `/` when empty. -/
def finalPathOf (w : List Char) : List Char :=
  if pathOf w = [] then ['/'] else pathOf w

/-- Invariants of the components of a normalized URL: an http(s) scheme, a
netloc free of `/?#`, a nonempty path starting with `/` and free of `?#`
whose last segment has no `;`, and a query free of `#`.  `normalize_url`
only emits such components, and on URLs assembled from such components it
is the identity. -/
structure GoodUrl (scheme netloc path query : List Char) : Prop where
  scheme_http : scheme = "http".data ∨ scheme = "https".data
  netloc_ok : ∀ c ∈ netloc, netlocStop c = false
  path_cons : ∃ t, path = '/' :: t
  path_ok : ∀ c ∈ path, c ≠ '?' ∧ c ≠ '#'
  seg_ok : ∀ c ∈ lastSeg path, c ≠ ';'
  query_ok : ∀ c ∈ query, c ≠ '#'

/-- Keep the first task for each URL, dropping later duplicates. -/
def dedupKeys : List (String × Nat) → List (String × Nat)
  | [] => []
  | t :: rest => t :: dedupKeys (rest.filter (fun t2 => t2.1 ≠ t.1))
termination_by l => l.length
decreasing_by
  simp only [List.length_cons]
  exact Nat.lt_succ_of_le (List.length_filter_le _ _)

/-! ## General lemmas -/

namespace Lemmas

theorem takeWhile_append_of_all {p : Char → Bool} {xs : List Char}
    (ys : List Char) (h : ∀ x ∈ xs, p x = true) :
    (xs ++ ys).takeWhile p = xs ++ ys.takeWhile p := by
  induction xs with
  | nil => simp
  | cons a l ih =>
    have ha := h a (by simp)
    have ih' := ih fun x hx => h x (by simp [hx])
    simp [List.takeWhile_cons, ha, ih']

theorem dropWhile_append_of_all {p : Char → Bool} {xs : List Char}
    (ys : List Char) (h : ∀ x ∈ xs, p x = true) :
    (xs ++ ys).dropWhile p = ys.dropWhile p := by
  induction xs with
  | nil => simp
  | cons a l ih =>
    have ha := h a (by simp)
    have ih' := ih fun x hx => h x (by simp [hx])
    simp [List.dropWhile_cons, ha, ih']

theorem mem_takeWhile {p : Char → Bool} {l : List Char} {x : Char}
    (h : x ∈ l.takeWhile p) : x ∈ l ∧ p x = true := by
  induction l with
  | nil => simp at h
  | cons a t ih =>
    by_cases hp : p a = true
    · simp only [List.takeWhile_cons, hp, if_true, List.mem_cons] at h
      rcases h with rfl | h
      · exact ⟨by simp, hp⟩
      · exact ⟨by simp [(ih h).1], (ih h).2⟩
    · simp only [List.takeWhile_cons, Bool.not_eq_true] at h
      rw [Bool.not_eq_true] at hp
      simp [hp] at h

theorem mem_dropWhile {p : Char → Bool} {l : List Char} {x : Char}
    (h : x ∈ l.dropWhile p) : x ∈ l :=
  (l.dropWhile_sublist p).mem h

theorem isPrefixOf_append_self (l t : List Char) :
    l.isPrefixOf (l ++ t) = true := by
  induction l with
  | nil => simp [List.isPrefixOf]
  | cons a l ih => simp [List.isPrefixOf, ih]

theorem dictGet_dictInsert_self (d : Record) (f : String) (v : Value) :
    dictGet (dictInsert d f v) f = some v := by
  induction d with
  | nil => simp [dictInsert, dictGet]
  | cons e rest ih =>
    by_cases h : e.1 = f
    · simp [dictInsert, dictGet, h]
    · simp [dictInsert, dictGet, h, ih]

theorem dictGet_dictInsert_ne (d : Record) {g f : String} (h : g ≠ f)
    (v : Value) : dictGet (dictInsert d g v) f = dictGet d f := by
  induction d with
  | nil => simp [dictInsert, dictGet, h]
  | cons e rest ih =>
    obtain ⟨a, w⟩ := e
    by_cases he : a = g
    · simp [dictInsert, dictGet, he, h, Ne.symm h]
    · by_cases hf : a = f <;>
        simp [dictInsert, dictGet, he, hf, Ne.symm h, ih]

/-- The extraction fold leaves keys it never touches alone. -/
theorem dictGet_fold_not_mem (soup : Html) (sels : List (String × String))
    (init : Record) (f : String) (h : f ∉ sels.map Prod.fst) :
    dictGet (sels.foldl
      (fun d fs => dictInsert d fs.1 (selectValue soup fs.2)) init) f
      = dictGet init f := by
  induction sels generalizing init with
  | nil => rfl
  | cons e rest ih =>
    simp only [List.map_cons, List.mem_cons, not_or] at h
    rw [List.foldl_cons, ih _ h.2,
      dictGet_dictInsert_ne _ (fun he => h.1 he.symm)]

/-- With duplicate-free keys, the extraction fold stores each pair's value
under its own key. -/
theorem dictGet_fold_mem (soup : Html) (sels : List (String × String))
    (init : Record) (f sel : String) (hmem : (f, sel) ∈ sels)
    (hnd : (sels.map Prod.fst).Nodup) :
    dictGet (sels.foldl
      (fun d fs => dictInsert d fs.1 (selectValue soup fs.2)) init) f
      = some (selectValue soup sel) := by
  induction sels generalizing init with
  | nil => simp at hmem
  | cons e rest ih =>
    simp only [List.map_cons, List.nodup_cons] at hnd
    rcases List.mem_cons.1 hmem with he | hrest
    · subst he
      rw [List.foldl_cons, dictGet_fold_not_mem _ _ _ _ hnd.1,
        dictGet_dictInsert_self]
    · exact ih _ hrest hnd.2

/-- Unfolding `crawlStep` when the head task is skipped. -/
theorem crawlStep_skip (env : Env) (us : Bool)
    (sel : List (String × String)) (rd : Bool) (md : Nat) {s : CState}
    {url : String} {depth : Nat} {rest : List (String × Nat)}
    (hq : s.toVisit = (url, depth) :: rest)
    (h : url ∈ s.visited ∨ md < depth) :
    crawlStep env us sel rd md s = { s with toVisit := rest } := by
  unfold crawlStep
  rw [hq]
  simp [h]

/-- Unfolding `crawlStep` when the head task is processed below the depth
bound: data extraction (when selectors were given), then link discovery with
a second fetch. -/
theorem crawlStep_process_lt (env : Env) (us : Bool)
    (sel : List (String × String)) (rd : Bool) (md : Nat) {s : CState}
    {url : String} {depth : Nat} {rest : List (String × Nat)}
    (hq : s.toVisit = (url, depth) :: rest) (hv : url ∉ s.visited)
    (hd : depth < md) :
    crawlStep env us sel rd md s =
      { toVisit := rest ++ ((extract_links env us url rd).filter
          (fun l => l ∉ url :: s.visited)).map (fun l => (l, depth + 1)),
        visited := url :: s.visited,
        allData :=
          match (if sel ≠ [] then extract_data env us url sel else none) with
          | some d => s.allData ++ [d]
          | none => s.allData,
        fetched := (if sel ≠ [] then s.fetched ++ [url] else s.fetched)
          ++ [url],
        processedTasks := s.processedTasks ++ [(url, depth)] } := by
  have hguard : ¬(url ∈ s.visited ∨ md < depth) := by
    push_neg
    exact ⟨hv, Nat.le_of_lt hd⟩
  unfold crawlStep
  rw [hq]
  by_cases hsel : sel = [] <;> simp [hguard, hd, hsel]

/-- Unfolding `crawlStep` when the head task is processed at the depth bound:
no link discovery, only the optional data-extraction fetch. -/
theorem crawlStep_process_ge (env : Env) (us : Bool)
    (sel : List (String × String)) (rd : Bool) (md : Nat) {s : CState}
    {url : String} {depth : Nat} {rest : List (String × Nat)}
    (hq : s.toVisit = (url, depth) :: rest) (hv : url ∉ s.visited)
    (hd : depth ≤ md) (hge : ¬ depth < md) :
    crawlStep env us sel rd md s =
      { toVisit := rest,
        visited := url :: s.visited,
        allData :=
          match (if sel ≠ [] then extract_data env us url sel else none) with
          | some d => s.allData ++ [d]
          | none => s.allData,
        fetched := if sel ≠ [] then s.fetched ++ [url] else s.fetched,
        processedTasks := s.processedTasks ++ [(url, depth)] } := by
  have hguard : ¬(url ∈ s.visited ∨ md < depth) := by
    push_neg
    exact ⟨hv, hd⟩
  unfold crawlStep
  rw [hq]
  by_cases hsel : sel = [] <;> simp [hguard, hge, hsel]

/-- `crawlLoop` returns immediately on an empty frontier. -/
theorem crawlLoop_nil (env : Env) (us : Bool) (sel : List (String × String))
    (rd : Bool) (md : Nat) (fuel : Nat) {s : CState} (h : s.toVisit = []) :
    crawlLoop env us sel rd md fuel s = some s := by
  cases fuel <;> simp [crawlLoop, h]

/-- `crawlLoop` consumes one unit of fuel per iteration. -/
theorem crawlLoop_succ (env : Env) (us : Bool) (sel : List (String × String))
    (rd : Bool) (md : Nat) (fuel : Nat) {s : CState} (h : s.toVisit ≠ []) :
    crawlLoop env us sel rd md (fuel + 1) s =
      crawlLoop env us sel rd md fuel (crawlStep env us sel rd md s) := by
  simp [crawlLoop, h]

/-- Out of fuel with a nonempty frontier, `crawlLoop` diverges. -/
theorem crawlLoop_zero (env : Env) (us : Bool) (sel : List (String × String))
    (rd : Bool) (md : Nat) {s : CState} (h : s.toVisit ≠ []) :
    crawlLoop env us sel rd md 0 s = none := by
  simp [crawlLoop, h]

/-- `crawlStep` on an empty frontier is the identity. -/
theorem crawlStep_nil (env : Env) (us : Bool) (sel : List (String × String))
    (rd : Bool) (md : Nat) {s : CState} (h : s.toVisit = []) :
    crawlStep env us sel rd md s = s := by
  unfold crawlStep
  rw [h]

/-- One crawl step preserves the visitation invariant. -/
theorem visitInv_step (env : Env) (us : Bool) (sel : List (String × String))
    (rd : Bool) (md : Nat) (s : CState) (h : VisitInv s) :
    VisitInv (crawlStep env us sel rd md s) := by
  obtain ⟨h1, h2, h3, h4, h5⟩ := h
  cases hq : s.toVisit with
  | nil =>
    rw [crawlStep_nil env us sel rd md hq]
    exact ⟨h1, h2, h3, h4, h5⟩
  | cons t rest =>
    obtain ⟨url, depth⟩ := t
    by_cases hskip : url ∈ s.visited ∨ md < depth
    · rw [crawlStep_skip env us sel rd md hq hskip]
      exact ⟨h1, h2, h3, h4, h5⟩
    · push_neg at hskip
      obtain ⟨hv, hd⟩ := hskip
      have hcnt0 := (h5 url hv).1
      have hnp := (h5 url hv).2
      have hvis : (url :: s.visited).Nodup := List.nodup_cons.2 ⟨hv, h1⟩
      have hproc :
          ((s.processedTasks ++ [(url, depth)]).map Prod.fst).Nodup := by
        rw [List.map_append]
        simp [List.nodup_append, hnp, h2]
      have hsub : ∀ u ∈ (s.processedTasks ++ [(url, depth)]).map Prod.fst,
          u ∈ url :: s.visited := by
        intro u hu
        rw [List.map_append] at hu
        rcases List.mem_append.1 hu with hu | hu
        · exact List.mem_cons_of_mem _ (h3 u hu)
        · simp only [List.map_cons, List.map_nil, List.mem_singleton] at hu
          simp [hu]
      have hnotp : ∀ u, u ∉ url :: s.visited →
          u ∉ (s.processedTasks ++ [(url, depth)]).map Prod.fst := by
        intro u hu
        simp only [List.mem_cons, not_or] at hu
        rw [List.map_append]
        simp only [List.mem_append, List.map_cons, List.map_nil,
          List.mem_singleton, not_or]
        exact ⟨(h5 u hu.2).2, hu.1⟩
      have hsing_eq : ([url] : List String).count url = 1 := by simp
      have hsing_ne : ∀ u, u ≠ url → ([url] : List String).count u = 0 :=
        fun u hu => List.count_eq_zero.2 (by simp [hu])
      have hfetch_ge : ∀ u,
          ((if sel ≠ [] then s.fetched ++ [url] else s.fetched)).count u
            ≤ 2 := by
        intro u
        by_cases hsel : sel = []
        · simpa [hsel] using h4 u
        · by_cases hu : u = url
          · subst hu
            simp [hsel, List.count_append, hcnt0, hsing_eq]
          · simp only [hsel, ne_eq, not_false_eq_true, ite_true,
              List.count_append, hsing_ne u hu]
            simpa using h4 u
      have hzero_ge : ∀ u, u ≠ url → u ∉ s.visited →
          ((if sel ≠ [] then s.fetched ++ [url]
            else s.fetched)).count u = 0 := by
        intro u hu hv2
        by_cases hsel : sel = [] <;>
          simp [hsel, List.count_append, hsing_ne u hu, (h5 u hv2).1]
      have hfetch_lt : ∀ u,
          (((if sel ≠ [] then s.fetched ++ [url] else s.fetched))
            ++ [url]).count u ≤ 2 := by
        intro u
        rw [List.count_append]
        by_cases hu : u = url
        · subst hu
          rw [hsing_eq]
          by_cases hsel : sel = []
          · simp [hsel, hcnt0]
          · simp [hsel, List.count_append, hcnt0, hsing_eq]
        · rw [hsing_ne u hu]
          have := hfetch_ge u
          omega
      have hzero_lt : ∀ u, u ≠ url → u ∉ s.visited →
          (((if sel ≠ [] then s.fetched ++ [url] else s.fetched))
            ++ [url]).count u = 0 := by
        intro u hu hv2
        rw [List.count_append, hsing_ne u hu, hzero_ge u hu hv2]
      by_cases hlt : depth < md
      · rw [crawlStep_process_lt env us sel rd md hq hv hlt]
        refine ⟨hvis, hproc, hsub, hfetch_lt, ?_⟩
        intro u hu
        have hne : u ≠ url := by
          simp only [List.mem_cons, not_or] at hu
          exact hu.1
        have hv2 : u ∉ s.visited := by
          simp only [List.mem_cons, not_or] at hu
          exact hu.2
        exact ⟨hzero_lt u hne hv2, hnotp u hu⟩
      · rw [crawlStep_process_ge env us sel rd md hq hv hd hlt]
        refine ⟨hvis, hproc, hsub, hfetch_ge, ?_⟩
        intro u hu
        have hne : u ≠ url := by
          simp only [List.mem_cons, not_or] at hu
          exact hu.1
        have hv2 : u ∉ s.visited := by
          simp only [List.mem_cons, not_or] at hu
          exact hu.2
        exact ⟨hzero_ge u hne hv2, hnotp u hu⟩

/-- The visitation invariant holds at the end of any completed run. -/
theorem visitInv_run (env : Env) (us : Bool) (sel : List (String × String))
    (rd : Bool) (md : Nat) : ∀ (fuel : Nat) (s out : CState),
    VisitInv s → crawlLoop env us sel rd md fuel s = some out →
    VisitInv out := by
  intro fuel
  induction fuel with
  | zero =>
    intro s out h hrun
    by_cases hnil : s.toVisit = []
    · rw [crawlLoop_nil env us sel rd md 0 hnil] at hrun
      cases Option.some.inj hrun
      exact h
    · rw [crawlLoop_zero env us sel rd md hnil] at hrun
      cases hrun
  | succ n ih =>
    intro s out h hrun
    by_cases hnil : s.toVisit = []
    · rw [crawlLoop_nil env us sel rd md (n + 1) hnil] at hrun
      cases Option.some.inj hrun
      exact h
    · rw [crawlLoop_succ env us sel rd md n hnil] at hrun
      exact ih _ _ (visitInv_step env us sel rd md s h) hrun

/-- A crawl step never removes a URL from the visited set. -/
theorem visited_mono_step (env : Env) (us : Bool)
    (sel : List (String × String)) (rd : Bool) (md : Nat) (s : CState)
    {x : String} (hx : x ∈ s.visited) :
    x ∈ (crawlStep env us sel rd md s).visited := by
  cases hq : s.toVisit with
  | nil =>
    rw [crawlStep_nil env us sel rd md hq]
    exact hx
  | cons t rest =>
    obtain ⟨url, depth⟩ := t
    by_cases hskip : url ∈ s.visited ∨ md < depth
    · rw [crawlStep_skip env us sel rd md hq hskip]
      exact hx
    · push_neg at hskip
      by_cases hlt : depth < md
      · rw [crawlStep_process_lt env us sel rd md hq hskip.1 hlt]
        exact List.mem_cons_of_mem _ hx
      · rw [crawlStep_process_ge env us sel rd md hq hskip.1 hskip.2 hlt]
        exact List.mem_cons_of_mem _ hx

/-- One crawl step preserves the depth bound on the frontier. -/
theorem depthLE_step (env : Env) (us : Bool) (sel : List (String × String))
    (rd : Bool) (md : Nat) (s : CState) (h : DepthLE md s.toVisit) :
    DepthLE md (crawlStep env us sel rd md s).toVisit := by
  cases hq : s.toVisit with
  | nil =>
    rw [crawlStep_nil env us sel rd md hq]
    exact h
  | cons t0 rest =>
    obtain ⟨url, depth⟩ := t0
    have hrest : DepthLE md rest := fun t2 ht2 =>
      h t2 (by rw [hq]; exact List.mem_cons_of_mem _ ht2)
    by_cases hskip : url ∈ s.visited ∨ md < depth
    · rw [crawlStep_skip env us sel rd md hq hskip]
      exact hrest
    · push_neg at hskip
      by_cases hlt : depth < md
      · rw [crawlStep_process_lt env us sel rd md hq hskip.1 hlt]
        intro t2 ht2
        rcases List.mem_append.1 ht2 with h2 | h2
        · exact hrest t2 h2
        · obtain ⟨l, _, rfl⟩ := List.mem_map.1 h2
          exact hlt
      · rw [crawlStep_process_ge env us sel rd md hq hskip.1 hskip.2 hlt]
        exact hrest

/-- One crawl step only processes tasks within the depth bound. -/
theorem processed_step (env : Env) (us : Bool) (sel : List (String × String))
    (rd : Bool) (md : Nat) (s : CState) (hq : DepthLE md s.toVisit)
    (hp : ∀ t ∈ s.processedTasks, t.2 ≤ md) :
    ∀ t ∈ (crawlStep env us sel rd md s).processedTasks, t.2 ≤ md := by
  cases hqq : s.toVisit with
  | nil =>
    rw [crawlStep_nil env us sel rd md hqq]
    exact hp
  | cons t0 rest =>
    obtain ⟨url, depth⟩ := t0
    have hdep : depth ≤ md := hq (url, depth) (by rw [hqq]; simp)
    by_cases hskip : url ∈ s.visited ∨ md < depth
    · rw [crawlStep_skip env us sel rd md hqq hskip]
      exact hp
    · push_neg at hskip
      have hnew : ∀ t2 ∈ s.processedTasks ++ [(url, depth)], t2.2 ≤ md := by
        intro t2 ht2
        rcases List.mem_append.1 ht2 with h2 | h2
        · exact hp t2 h2
        · simp only [List.mem_singleton] at h2
          rw [h2]
          exact hdep
      by_cases hlt : depth < md
      · rw [crawlStep_process_lt env us sel rd md hqq hskip.1 hlt]
        exact hnew
      · rw [crawlStep_process_ge env us sel rd md hqq hskip.1 hskip.2 hlt]
        exact hnew

/-- Over a whole completed run, every processed task respects the depth
bound. -/
theorem processed_run (env : Env) (us : Bool) (sel : List (String × String))
    (rd : Bool) (md : Nat) : ∀ (fuel : Nat) (s out : CState),
    DepthLE md s.toVisit → (∀ t ∈ s.processedTasks, t.2 ≤ md) →
    crawlLoop env us sel rd md fuel s = some out →
    ∀ t ∈ out.processedTasks, t.2 ≤ md := by
  intro fuel
  induction fuel with
  | zero =>
    intro s out hq hp hrun
    by_cases hnil : s.toVisit = []
    · rw [crawlLoop_nil env us sel rd md 0 hnil] at hrun
      cases Option.some.inj hrun
      exact hp
    · rw [crawlLoop_zero env us sel rd md hnil] at hrun
      cases hrun
  | succ n ih =>
    intro s out hq hp hrun
    by_cases hnil : s.toVisit = []
    · rw [crawlLoop_nil env us sel rd md (n + 1) hnil] at hrun
      cases Option.some.inj hrun
      exact hp
    · rw [crawlLoop_succ env us sel rd md n hnil] at hrun
      exact ih _ _ (depthLE_step env us sel rd md s hq)
        (processed_step env us sel rd md s hq hp) hrun

/-- The depth bound on the frontier holds at every iterate of the step
function. -/
theorem depthLE_iterate (env : Env) (us : Bool)
    (sel : List (String × String)) (rd : Bool) (md : Nat) (init : CState)
    (h : DepthLE md init.toVisit) :
    ∀ n, DepthLE md
      ((crawlStep env us sel rd md)^[n] init).toVisit := by
  intro n
  induction n with
  | zero => simpa using h
  | succ k ih =>
    rw [Function.iterate_succ_apply']
    exact depthLE_step env us sel rd md _ ih

/-- At the depth boundary the step dequeues the task and enqueues nothing:
the link discoverer is not invoked. -/
theorem crawlStep_boundary (env : Env) (us : Bool)
    (sel : List (String × String)) (rd : Bool) (md : Nat) (s : CState)
    {url : String} {rest : List (String × Nat)}
    (hq : s.toVisit = (url, md) :: rest) :
    (crawlStep env us sel rd md s).toVisit = rest := by
  by_cases hv : url ∈ s.visited
  · rw [crawlStep_skip env us sel rd md hq (Or.inl hv)]
  · rw [crawlStep_process_ge env us sel rd md hq hv le_rfl (lt_irrefl md)]

/-- `process_url` at the depth boundary discovers no links. -/
theorem processUrl_boundary (env : Env) (us : Bool)
    (sel : List (String × String)) (rd : Bool) (md : Nat)
    (visited : List String) (url : String) :
    processUrl env us sel rd md visited (url, md) =
      (some ((if sel ≠ [] then extract_data env us url sel else none), []),
        visited) := by
  simp [processUrl]

/-- The visited set grows monotonically over a whole run. -/
theorem visited_mono_run (env : Env) (us : Bool)
    (sel : List (String × String)) (rd : Bool) (md : Nat) :
    ∀ (fuel : Nat) (s out : CState),
    crawlLoop env us sel rd md fuel s = some out →
    ∀ x ∈ s.visited, x ∈ out.visited := by
  intro fuel
  induction fuel with
  | zero =>
    intro s out hrun x hx
    by_cases hnil : s.toVisit = []
    · rw [crawlLoop_nil env us sel rd md 0 hnil] at hrun
      cases Option.some.inj hrun
      exact hx
    · rw [crawlLoop_zero env us sel rd md hnil] at hrun
      cases hrun
  | succ n ih =>
    intro s out hrun x hx
    by_cases hnil : s.toVisit = []
    · rw [crawlLoop_nil env us sel rd md (n + 1) hnil] at hrun
      cases Option.some.inj hrun
      exact hx
    · rw [crawlLoop_succ env us sel rd md n hnil] at hrun
      exact ih _ _ hrun x (visited_mono_step env us sel rd md s hx)

/-- `parallelLoop` returns immediately on an empty frontier. -/
theorem parallelLoop_nil (env : Env) (us : Bool)
    (sel : List (String × String)) (rd : Bool) (md mw : Nat) (fuel : Nat)
    {p : PState} (h : p.toVisit = []) :
    parallelLoop env us sel rd md mw fuel p = some p.allData := by
  cases fuel <;> simp [parallelLoop, h]

/-- Out of fuel with a nonempty frontier, `parallelLoop` diverges. -/
theorem parallelLoop_zero (env : Env) (us : Bool)
    (sel : List (String × String)) (rd : Bool) (md mw : Nat) {p : PState}
    (h : p.toVisit ≠ []) :
    parallelLoop env us sel rd md mw 0 p = none := by
  simp [parallelLoop, h]

/-- With one worker, every wave is exactly the head task. -/
theorem parallelLoop_one_cons (env : Env) (us : Bool)
    (sel : List (String × String)) (rd : Bool) (md : Nat) (fuel : Nat)
    (t : String × Nat) (q : List (String × Nat)) (v : List String)
    (a : List Record) :
    parallelLoop env us sel rd md 1 (fuel + 1) ⟨t :: q, v, a⟩ =
      parallelLoop env us sel rd md 1 fuel
        ⟨(foldResults [(processUrl env us sel rd md v t).1] a q).2,
         (processUrl env us sel rd md v t).2,
         (foldResults [(processUrl env us sel rd md v t).1] a q).1⟩ := by
  conv_lhs => rw [parallelLoop]
  rw [if_neg (by simp : ¬((⟨t :: q, v, a⟩ : PState).toVisit = []))]
  have hk : (1 : Nat) ⊓ (t :: q).length = 1 := by
    simp
  have htake : List.take 1 (t :: q) = [t] := rfl
  have hdrop : List.drop 1 (t :: q) = q := rfl
  have hbat : runBatch env us sel rd md [t] v =
      ((processUrl env us sel rd md v t).1 :: [],
        (processUrl env us sel rd md v t).2) := rfl
  simp only [hk, htake, hdrop, hbat]

/-- With one worker, a wave whose head task is dropped (`process_url`
returned `None`) just dequeues it. -/
theorem parallelLoop_one_skip (env : Env) (us : Bool)
    (sel : List (String × String)) (rd : Bool) (md : Nat) (fuel : Nat)
    (t : String × Nat) (q : List (String × Nat)) (v v2 : List String)
    (a : List Record)
    (hr : processUrl env us sel rd md v t = (none, v2)) :
    parallelLoop env us sel rd md 1 (fuel + 1) ⟨t :: q, v, a⟩ =
      parallelLoop env us sel rd md 1 fuel ⟨q, v2, a⟩ := by
  rw [parallelLoop_one_cons env us sel rd md fuel t q v a, hr]
  simp [foldResults]

/-- With one worker, a wave whose head task is processed appends its record
(when present) and its new tasks. -/
theorem parallelLoop_one_proc (env : Env) (us : Bool)
    (sel : List (String × String)) (rd : Bool) (md : Nat) (fuel : Nat)
    (t : String × Nat) (q : List (String × Nat)) (v v2 : List String)
    (a : List Record) (data : Option Record)
    (newUrls : List (String × Nat))
    (hr : processUrl env us sel rd md v t = (some (data, newUrls), v2)) :
    parallelLoop env us sel rd md 1 (fuel + 1) ⟨t :: q, v, a⟩ =
      parallelLoop env us sel rd md 1 fuel
        ⟨q ++ newUrls, v2, a ++ data.toList⟩ := by
  rw [parallelLoop_one_cons env us sel rd md fuel t q v a, hr]
  cases data <;> simp [foldResults]

/-- More fuel never changes a completed `parallelLoop` run. -/
theorem parallelLoop_mono (env : Env) (us : Bool)
    (sel : List (String × String)) (rd : Bool) (md mw : Nat) :
    ∀ (fuel : Nat) (p : PState) (r : List Record),
    parallelLoop env us sel rd md mw fuel p = some r →
    parallelLoop env us sel rd md mw (fuel + 1) p = some r := by
  intro fuel
  induction fuel with
  | zero =>
    intro p r h
    by_cases hnil : p.toVisit = []
    · rw [parallelLoop_nil env us sel rd md mw 0 hnil] at h
      rw [parallelLoop_nil env us sel rd md mw 1 hnil]
      exact h
    · rw [parallelLoop_zero env us sel rd md mw hnil] at h
      cases h
  | succ n ih =>
    intro p r h
    by_cases hnil : p.toVisit = []
    · rw [parallelLoop_nil env us sel rd md mw (n + 1) hnil] at h
      rw [parallelLoop_nil env us sel rd md mw (n + 2) hnil]
      exact h
    · rw [show parallelLoop env us sel rd md mw (n + 1) p
          = parallelLoop env us sel rd md mw n
            (let k := min mw p.toVisit.length
             let batch := p.toVisit.take k
             let rest := p.toVisit.drop k
             let br := runBatch env us sel rd md batch p.visited
             let fr := foldResults br.1 p.allData rest
             ⟨fr.2, br.2, fr.1⟩) from by
        simp only [parallelLoop]
        rw [if_neg hnil]] at h
      rw [show parallelLoop env us sel rd md mw (n + 2) p
          = parallelLoop env us sel rd md mw (n + 1)
            (let k := min mw p.toVisit.length
             let batch := p.toVisit.take k
             let rest := p.toVisit.drop k
             let br := runBatch env us sel rd md batch p.visited
             let fr := foldResults br.1 p.allData rest
             ⟨fr.2, br.2, fr.1⟩) from by
        simp only [parallelLoop]
        rw [if_neg hnil]]
      exact ih _ r h

/-- `dedupKeys` of the empty list. -/
theorem dedupKeys_nil : dedupKeys [] = [] := by
  rw [dedupKeys]

/-- Unfolding `dedupKeys` on a cons cell. -/
theorem dedupKeys_cons (t : String × Nat) (rest : List (String × Nat)) :
    dedupKeys (t :: rest) =
      t :: dedupKeys (rest.filter (fun t2 => t2.1 ≠ t.1)) := by
  rw [dedupKeys]

/-- `dedupKeys` preserves the set of URLs. -/
theorem mem_keys_dedupKeys :
    ∀ (n : Nat) (l : List (String × Nat)), l.length ≤ n → ∀ x : String,
    (x ∈ (dedupKeys l).map Prod.fst ↔ x ∈ l.map Prod.fst) := by
  intro n
  induction n with
  | zero =>
    intro l hl x
    rw [List.length_eq_zero.1 (Nat.le_zero.1 hl), dedupKeys_nil]
  | succ k ih =>
    intro l hl x
    cases l with
    | nil => rw [dedupKeys_nil]
    | cons t rest =>
      rw [dedupKeys_cons]
      simp only [List.map_cons, List.mem_cons]
      have hlen : (rest.filter (fun t2 => t2.1 ≠ t.1)).length ≤ k :=
        le_trans (List.length_filter_le _ _)
          (Nat.le_of_succ_le_succ hl)
      rw [ih _ hlen x]
      constructor
      · rintro (rfl | hx)
        · exact Or.inl rfl
        · obtain ⟨t2, ht2, rfl⟩ := List.mem_map.1 hx
          exact Or.inr (List.mem_map.2 ⟨t2, (List.mem_filter.1 ht2).1, rfl⟩)
      · rintro (rfl | hx)
        · exact Or.inl rfl
        · obtain ⟨t2, ht2, rfl⟩ := List.mem_map.1 hx
          by_cases he : t2.1 = t.1
          · exact Or.inl he
          · exact Or.inr (List.mem_map.2
              ⟨t2, List.mem_filter.2 ⟨ht2, by simpa using he⟩, rfl⟩)

/-- Filtering away one key does not change membership of the other keys. -/
theorem keys_filter_ne (rest : List (String × Nat)) (a b : String)
    (hne : a ≠ b) :
    (a ∈ (rest.filter (fun t2 => t2.1 ≠ b)).map Prod.fst ↔
      a ∈ rest.map Prod.fst) := by
  simp only [List.mem_map, List.mem_filter, decide_eq_true_eq]
  constructor
  · rintro ⟨t2, ⟨ht2, _⟩, rfl⟩
    exact ⟨t2, ht2, rfl⟩
  · rintro ⟨t2, ht2, rfl⟩
    exact ⟨t2, ⟨ht2, hne⟩, rfl⟩

/-- `dedupKeys` distributes over append, filtering the tail by the keys of
the head. -/
theorem dedupKeys_append :
    ∀ (n : Nat) (xs : List (String × Nat)), xs.length ≤ n →
    ∀ ys : List (String × Nat),
    dedupKeys (xs ++ ys) = dedupKeys xs ++
      dedupKeys (ys.filter (fun t => t.1 ∉ xs.map Prod.fst)) := by
  intro n
  induction n with
  | zero =>
    intro xs hl ys
    rw [List.length_eq_zero.1 (Nat.le_zero.1 hl)]
    simp [dedupKeys_nil]
  | succ k ih =>
    intro xs hl ys
    cases xs with
    | nil => simp [dedupKeys_nil]
    | cons t rest =>
      have hiff : ∀ t2 : String × Nat,
          ((t2.1 ∉ (rest.filter (fun t3 => t3.1 ≠ t.1)).map Prod.fst) ∧
            t2.1 ≠ t.1) ↔ t2.1 ∉ (t :: rest).map Prod.fst := by
        intro t2
        simp only [List.map_cons, List.mem_cons, not_or]
        constructor
        · rintro ⟨hA, hB⟩
          exact ⟨hB, fun hm => hA ((keys_filter_ne rest t2.1 t.1 hB).2 hm)⟩
        · rintro ⟨hB, hM⟩
          exact ⟨fun hm => hM ((keys_filter_ne rest t2.1 t.1 hB).1 hm), hB⟩
      have hfe : (ys.filter (fun t2 => t2.1 ≠ t.1)).filter
            (fun t2 => t2.1 ∉
              (rest.filter (fun t2 => t2.1 ≠ t.1)).map Prod.fst)
          = ys.filter (fun t2 => t2.1 ∉ (t :: rest).map Prod.fst) := by
        rw [List.filter_filter]
        apply List.filter_congr
        intro t2 ht2
        rw [← Bool.decide_and, decide_eq_decide]
        exact hiff t2
      rw [List.cons_append, dedupKeys_cons, dedupKeys_cons,
        List.filter_append,
        ih _ (le_trans (List.length_filter_le _ _)
          (Nat.le_of_succ_le_succ hl)), hfe]
      rfl

/-- The record-append branch of both crawl loops, as a list append. -/
theorem match_append_toList (o : Option Record) (l : List Record) :
    (match o with | some d => l ++ [d] | none => l) = l ++ o.toList := by
  cases o <;> simp

/-- Restricting a same-depth task list to fresh URLs commutes with
tagging. -/
theorem filter_map_tag (d1 : Nat) (ls : List String) (pb : String → Bool) :
    ((ls.map (fun l => (l, d1))).filter (fun t2 => pb t2.1))
      = (ls.filter pb).map (fun l => (l, d1)) := by
  induction ls with
  | nil => rfl
  | cons l t ih =>
    cases hp : pb l <;>
      simp [List.filter_cons, hp, ih]

/-- The new-task list built by `enqueueLinks` consists of the first
occurrences of the links not yet visited, tagged with the child depth. -/
theorem enqueueLinks_fst (d1 : Nat) : ∀ (links visited : List String),
    (enqueueLinks d1 links visited).1 =
      dedupKeys ((links.filter (fun l => l ∉ visited)).map
        (fun l => (l, d1))) := by
  intro links
  induction links with
  | nil =>
    intro visited
    simp [enqueueLinks, dedupKeys_nil]
  | cons l ls ih =>
    intro visited
    by_cases hv : l ∈ visited
    · rw [show enqueueLinks d1 (l :: ls) visited
          = enqueueLinks d1 ls visited from by
        simp [enqueueLinks, hv]]
      rw [ih visited]
      congr 2
      simp [List.filter_cons, hv]
    · have hstep : (enqueueLinks d1 (l :: ls) visited).1
          = (l, d1) :: (enqueueLinks d1 ls (l :: visited)).1 := by
        simp [enqueueLinks, hv]
      rw [hstep, ih (l :: visited)]
      have hrhs : (l :: ls).filter (fun l2 => l2 ∉ visited)
          = l :: ls.filter (fun l2 => l2 ∉ visited) := by
        simp [List.filter_cons, hv]
      rw [hrhs, List.map_cons, dedupKeys_cons]
      congr 1
      have hfst : ((l, d1).1 : String) = l := rfl
      rw [hfst, filter_map_tag d1 (ls.filter (fun l2 => l2 ∉ visited))
        (fun x => decide (x ≠ l))]
      congr 1
      rw [List.filter_filter]
      congr 1
      apply List.filter_congr
      intro l2 hl2
      rw [← Bool.decide_and, decide_eq_decide]
      simp [List.mem_cons, not_or, and_comm]

/-- The visited set threaded through `enqueueLinks` is the old one plus
exactly the URLs of the new tasks. -/
theorem enqueueLinks_snd (d1 : Nat) : ∀ (links visited : List String)
    (x : String),
    (x ∈ (enqueueLinks d1 links visited).2 ↔
      x ∈ visited ∨ x ∈ (enqueueLinks d1 links visited).1.map Prod.fst)
    := by
  intro links
  induction links with
  | nil =>
    intro visited x
    simp [enqueueLinks]
  | cons l ls ih =>
    intro visited x
    by_cases hv : l ∈ visited
    · rw [show enqueueLinks d1 (l :: ls) visited
          = enqueueLinks d1 ls visited from by
        simp [enqueueLinks, hv]]
      exact ih visited x
    · have hstep1 : (enqueueLinks d1 (l :: ls) visited).1
          = (l, d1) :: (enqueueLinks d1 ls (l :: visited)).1 := by
        simp [enqueueLinks, hv]
      have hstep2 : (enqueueLinks d1 (l :: ls) visited).2
          = (enqueueLinks d1 ls (l :: visited)).2 := by
        simp [enqueueLinks, hv]
      rw [hstep1, hstep2, List.map_cons]
      rw [ih (l :: visited) x]
      simp only [List.mem_cons]
      tauto

theorem takeWhile_all {p : Char → Bool} {l : List Char}
    (h : ∀ c ∈ l, p c = true) : l.takeWhile p = l := by
  induction l with
  | nil => rfl
  | cons a t ih =>
    have ha := h a (by simp)
    have ih' := ih fun c hc => h c (by simp [hc])
    simp [List.takeWhile_cons, ha, ih']

theorem dropWhile_all {p : Char → Bool} {l : List Char}
    (h : ∀ c ∈ l, p c = true) : l.dropWhile p = [] := by
  induction l with
  | nil => rfl
  | cons a t ih =>
    have ha := h a (by simp)
    have ih' := ih fun c hc => h c (by simp [hc])
    simp [List.dropWhile_cons, ha, ih']

/-- The head of `dropWhile`, when it exists, falsifies the predicate. -/
theorem dropWhile_head_false (p : Char → Bool) (l : List Char) :
    l.dropWhile p = [] ∨
      ∃ c t, l.dropWhile p = c :: t ∧ p c = false := by
  induction l with
  | nil => exact Or.inl rfl
  | cons a t ih =>
    cases ha : p a with
    | true => simpa [List.dropWhile_cons, ha] using ih
    | false => exact Or.inr ⟨a, t, by simp [List.dropWhile_cons, ha], ha⟩

/-- A path splits into its prefix through the last slash and its last
segment. -/
theorem tls_append_seg (s : List Char) :
    throughLastSlash s ++ lastSeg s = s := by
  unfold throughLastSlash lastSeg
  rw [← List.reverse_append, List.takeWhile_append_dropWhile,
    List.reverse_reverse]

/-- The last segment contains no slash. -/
theorem lastSeg_no_slash (s : List Char) : ∀ c ∈ lastSeg s, c ≠ '/' := by
  intro c hc
  unfold lastSeg at hc
  rw [List.mem_reverse] at hc
  have := (mem_takeWhile hc).2
  simpa using this

/-- Last-segment characters come from the path. -/
theorem mem_lastSeg {s : List Char} {c : Char} (h : c ∈ lastSeg s) :
    c ∈ s := by
  unfold lastSeg at h
  rw [List.mem_reverse] at h
  have := (mem_takeWhile h).1
  simpa using this

/-- Prefix-through-last-slash characters come from the path. -/
theorem mem_throughLastSlash {s : List Char} {c : Char}
    (h : c ∈ throughLastSlash s) : c ∈ s := by
  unfold throughLastSlash at h
  rw [List.mem_reverse] at h
  have := (s.reverse.dropWhile_sublist (fun c => c != '/')).mem h
  simpa using this

/-- When the path contains a slash, the prefix through the last slash ends
with one. -/
theorem tls_ends_slash {s : List Char} (h : '/' ∈ s) :
    ∃ a, throughLastSlash s = a ++ ['/'] := by
  rcases dropWhile_head_false (fun c => c != '/') s.reverse with hnil | hcons
  · exfalso
    have hall : s.reverse.takeWhile (fun c => c != '/') = s.reverse := by
      have hsplit := List.takeWhile_append_dropWhile
        (p := fun c => c != '/') (l := s.reverse)
      rw [hnil, List.append_nil] at hsplit
      exact hsplit
    have hmem : ('/' : Char) ∈ s.reverse := List.mem_reverse.2 h
    rw [← hall] at hmem
    have := (mem_takeWhile hmem).2
    simp at this
  · obtain ⟨c, t, heq, hc⟩ := hcons
    have hc' : c = '/' := by simpa using hc
    subst hc'
    refine ⟨t.reverse, ?_⟩
    unfold throughLastSlash
    rw [heq]
    simp

/-- Appending a slash-free segment to a slash-terminated prefix puts the
segment after the last slash. -/
theorem lastSeg_append_of {x y : List Char} (hx : ∃ a, x = a ++ ['/'])
    (hy : ∀ c ∈ y, c ≠ '/') : lastSeg (x ++ y) = y := by
  obtain ⟨a, rfl⟩ := hx
  unfold lastSeg
  rw [List.reverse_append]
  rw [takeWhile_append_of_all _ (fun c hc => by
    simpa using hy c (List.mem_reverse.1 hc))]
  simp [List.takeWhile_cons]

/-- `urlsplit` on an explicit `http`/`https` URL, componentwise. -/
theorem pyUrlsplit_scheme (sch w : List Char)
    (hsch : sch = "http".data ∨ sch = "https".data) :
    pyUrlsplit (sch ++ "://".data ++ w) = ⟨sch,
      w.takeWhile (fun c => !netlocStop c),
      ((w.dropWhile (fun c => !netlocStop c)).takeWhile
        (fun c => c != '#')).takeWhile (fun c => c != '?'),
      (((w.dropWhile (fun c => !netlocStop c)).takeWhile
        (fun c => c != '#')).dropWhile (fun c => c != '?')).drop 1,
      ((w.dropWhile (fun c => !netlocStop c)).dropWhile
        (fun c => c != '#')).drop 1⟩ := by
  rcases hsch with rfl | rfl <;> rfl

theorem isPrefixOf_exists {l u : List Char} (h : l.isPrefixOf u = true) :
    ∃ t, l ++ t = u := by
  induction l generalizing u with
  | nil => exact ⟨u, rfl⟩
  | cons a l2 ih =>
    cases u with
    | nil => simp [List.isPrefixOf] at h
    | cons b u2 =>
      simp only [List.isPrefixOf, Bool.and_eq_true, beq_iff_eq] at h
      obtain ⟨rfl, h2⟩ := h
      obtain ⟨t, ht⟩ := ih h2
      exact ⟨t, by rw [List.cons_append, ht]⟩

theorem nlOf_ok (w : List Char) : ∀ c ∈ nlOf w, netlocStop c = false := by
  intro c hc
  have := (mem_takeWhile hc).2
  simpa using this

theorem prawOf_ok (w : List Char) :
    ∀ c ∈ prawOf w, c ≠ '?' ∧ c ≠ '#' := by
  intro c hc
  have h1 := (mem_takeWhile hc).2
  have h2 := (mem_takeWhile hc).1
  have h3 := (mem_takeWhile h2).2
  exact ⟨by simpa using h1, by simpa using h3⟩

theorem queryOf_ok (w : List Char) : ∀ c ∈ queryOf w, c ≠ '#' := by
  intro c hc
  unfold queryOf at hc
  have h1 : c ∈ (preFragOf w).dropWhile (fun c => c != '?') :=
    List.drop_subset _ _ hc
  have h2 : c ∈ preFragOf w := mem_dropWhile h1
  have h3 := (mem_takeWhile h2).2
  simpa using h3

theorem prawOf_shape (w : List Char) :
    prawOf w = [] ∨ ∃ t, prawOf w = '/' :: t := by
  rcases dropWhile_head_false (fun c => !netlocStop c) w with
    hnil | ⟨c, t, heq, hc⟩
  · left
    unfold prawOf preFragOf restOf
    rw [hnil]
    rfl
  · have hcs : netlocStop c = true := by simpa using hc
    have hcase : c = '/' ∨ c = '?' ∨ c = '#' := by
      unfold netlocStop at hcs
      simp only [Bool.or_eq_true, beq_iff_eq] at hcs
      tauto
    unfold prawOf preFragOf restOf
    rw [heq]
    rcases hcase with rfl | rfl | rfl
    · right
      refine ⟨(t.takeWhile (fun c => c != '#')).takeWhile
        (fun c => c != '?'), ?_⟩
      simp [List.takeWhile_cons]
    · left
      simp [List.takeWhile_cons]
    · left
      simp [List.takeWhile_cons]

theorem splitParams_no_seg (s : List Char) (hs : '/' ∈ s)
    (hseg : ';' ∉ lastSeg s) : splitParams s = (s, []) := by
  unfold splitParams
  rw [if_pos hs, if_neg hseg]

theorem splitParams_of_seg (s : List Char) (hs : '/' ∈ s)
    (hseg : ';' ∈ lastSeg s) :
    (splitParams s).1 = throughLastSlash s ++
      (lastSeg s).takeWhile (fun c => c != ';') := by
  unfold splitParams
  rw [if_pos hs, if_pos hseg]

theorem splitParams_sub (s : List Char) :
    ∀ c ∈ (splitParams s).1, c ∈ s := by
  intro c hc
  unfold splitParams at hc
  by_cases hs : '/' ∈ s
  · rw [if_pos hs] at hc
    by_cases hseg : ';' ∈ lastSeg s
    · rw [if_pos hseg] at hc
      rcases List.mem_append.1 hc with hc | hc
      · exact mem_throughLastSlash hc
      · exact mem_lastSeg ((mem_takeWhile hc).1)
    · rw [if_neg hseg] at hc
      exact hc
  · rw [if_neg hs] at hc
    unfold splitOnFirst at hc
    exact (mem_takeWhile hc).1

theorem pathOf_sub (w : List Char) : ∀ c ∈ pathOf w, c ∈ prawOf w := by
  intro c hc
  unfold pathOf at hc
  by_cases hsem : ';' ∈ prawOf w
  · rw [if_pos hsem] at hc
    exact splitParams_sub _ c hc
  · rw [if_neg hsem] at hc
    exact hc

theorem pathOf_shape (w : List Char) :
    pathOf w = [] ∨ ∃ t, pathOf w = '/' :: t := by
  unfold pathOf
  by_cases hsem : ';' ∈ prawOf w
  · rw [if_pos hsem]
    rcases prawOf_shape w with hnil | ⟨t, ht⟩
    · rw [hnil] at hsem
      simp at hsem
    · have hs : '/' ∈ prawOf w := by rw [ht]; simp
      by_cases hseg : ';' ∈ lastSeg (prawOf w)
      · right
        rw [splitParams_of_seg _ hs hseg]
        have htls := tls_append_seg (prawOf w)
        have htne : throughLastSlash (prawOf w) ≠ [] := by
          intro h0
          rw [h0, List.nil_append] at htls
          have hsl : '/' ∈ lastSeg (prawOf w) := by
            rw [htls]
            exact hs
          exact lastSeg_no_slash (prawOf w) '/' hsl rfl
        obtain ⟨c0, t0, hct⟩ :
            ∃ c0 t0, throughLastSlash (prawOf w) = c0 :: t0 := by
          cases hc : throughLastSlash (prawOf w) with
          | nil => exact absurd hc htne
          | cons c0 t0 => exact ⟨c0, t0, rfl⟩
        have hc0 : c0 = '/' := by
          have h2 := htls
          rw [hct, ht, List.cons_append] at h2
          exact (List.cons.injEq _ _ _ _ ▸ h2).1
        refine ⟨t0 ++ (lastSeg (prawOf w)).takeWhile (fun c => c != ';'),
          ?_⟩
        rw [hct, hc0, List.cons_append]
      · rw [splitParams_no_seg _ hs hseg]
        exact Or.inr ⟨t, ht⟩
  · rw [if_neg hsem]
    exact prawOf_shape w

theorem pathOf_seg_ok (w : List Char) :
    ∀ c ∈ lastSeg (pathOf w), c ≠ ';' := by
  intro c hc
  unfold pathOf at hc
  by_cases hsem : ';' ∈ prawOf w
  · rw [if_pos hsem] at hc
    rcases prawOf_shape w with hnil | ⟨t, ht⟩
    · rw [hnil] at hsem
      simp at hsem
    · have hs : '/' ∈ prawOf w := by rw [ht]; simp
      by_cases hseg : ';' ∈ lastSeg (prawOf w)
      · have hex : ∃ a, throughLastSlash (prawOf w) = a ++ ['/'] :=
          tls_ends_slash hs
        have hls : lastSeg (throughLastSlash (prawOf w) ++
            (lastSeg (prawOf w)).takeWhile (fun c => c != ';'))
            = (lastSeg (prawOf w)).takeWhile (fun c => c != ';') :=
          lastSeg_append_of hex (fun c2 hc2 =>
            lastSeg_no_slash (prawOf w) c2 ((mem_takeWhile hc2).1))
        rw [splitParams_of_seg _ hs hseg, hls] at hc
        have := (mem_takeWhile hc).2
        simpa using this
      · rw [splitParams_no_seg _ hs hseg] at hc
        intro heq
        subst heq
        exact hseg hc
  · rw [if_neg hsem] at hc
    intro heq
    subst heq
    exact hsem (mem_lastSeg hc)

/-- `urlparse` on an `http(s)://` URL, in terms of the component
extractors. -/
theorem pyUrlparse_scheme (sch w : List Char)
    (hsch : sch = "http".data ∨ sch = "https".data) :
    pyUrlparse (sch ++ "://".data ++ w)
      = ⟨sch, nlOf w, pathOf w,
          (if ';' ∈ prawOf w then (splitParams (prawOf w)).2 else []),
          queryOf w,
          ((restOf w).dropWhile (fun c => c != '#')).drop 1⟩ := by
  have husep : sch ∈ usesParams := by
    rcases hsch with rfl | rfl <;> decide
  unfold pyUrlparse
  rw [pyUrlsplit_scheme sch w hsch]
  by_cases hsem : ';' ∈ prawOf w
  · have hpath : pathOf w = (splitParams (prawOf w)).1 := by
      unfold pathOf
      rw [if_pos hsem]
    have hparams : (if ';' ∈ prawOf w then (splitParams (prawOf w)).2
        else []) = (splitParams (prawOf w)).2 := if_pos hsem
    rw [if_pos ⟨husep, hsem⟩, hpath, hparams]
    exact rfl
  · have hpath : pathOf w = prawOf w := by
      unfold pathOf
      rw [if_neg hsem]
    have hparams : (if ';' ∈ prawOf w then (splitParams (prawOf w)).2
        else []) = ([] : List Char) := if_neg hsem
    rw [if_neg (fun hc => hsem hc.2), hpath, hparams]
    exact rfl

/-- `normalize_url`'s rebuild step on an `http(s)://` URL. -/
theorem normBuild_scheme (sch w : List Char)
    (hsch : sch = "http".data ∨ sch = "https".data) :
    normBuild (sch ++ "://".data ++ w)
      = assembleUrl sch (nlOf w) (finalPathOf w) (queryOf w) := by
  unfold normBuild
  rw [pyUrlparse_scheme sch w hsch]
  unfold assembleUrl finalPathOf queryPart
  by_cases hp0 : pathOf w = [] <;> by_cases hq : queryOf w = [] <;>
    simp [hp0, hq, List.append_assoc]

/-- Everything `normalize_url` parses out of an `http(s)://` URL satisfies
the output invariants. -/
theorem goodUrl_parse (sch w : List Char)
    (hsch : sch = "http".data ∨ sch = "https".data) :
    GoodUrl sch (nlOf w) (finalPathOf w) (queryOf w) := by
  refine ⟨hsch, nlOf_ok w, ?_, ?_, ?_, queryOf_ok w⟩
  · unfold finalPathOf
    by_cases hp0 : pathOf w = []
    · rw [if_pos hp0]
      exact ⟨[], rfl⟩
    · rw [if_neg hp0]
      rcases pathOf_shape w with h | h
      · exact absurd h hp0
      · exact h
  · unfold finalPathOf
    by_cases hp0 : pathOf w = []
    · rw [if_pos hp0]
      intro c hc
      simp only [List.mem_singleton] at hc
      subst hc
      exact ⟨by decide, by decide⟩
    · rw [if_neg hp0]
      intro c hc
      exact prawOf_ok w c (pathOf_sub w c hc)
  · unfold finalPathOf
    by_cases hp0 : pathOf w = []
    · rw [if_pos hp0, show lastSeg ['/'] = ([] : List Char) from rfl]
      intro c hc
      simp at hc
    · rw [if_neg hp0]
      exact pathOf_seg_ok w

/-- `normalize_url` always emits an assembled URL whose components satisfy
the output invariants. -/
theorem normalizeChars_shape (u : List Char) :
    ∃ sch nl p q, GoodUrl sch nl p q ∧
      normalizeChars u = assembleUrl sch nl p q := by
  obtain ⟨sch, w, hsch, hu⟩ : ∃ sch w,
      (sch = "http".data ∨ sch = "https".data) ∧
      (if isHttpList u then u else httpsColonSlash ++ u)
        = sch ++ "://".data ++ w := by
    by_cases h : isHttpList u = true
    · unfold isHttpList at h
      rw [Bool.or_eq_true] at h
      rcases h with h1 | h1
      · obtain ⟨t, ht⟩ := isPrefixOf_exists h1
        refine ⟨"http".data, t, Or.inl rfl, ?_⟩
        rw [if_pos (show isHttpList u = true from by
          unfold isHttpList
          rw [h1]
          rfl), ← ht]
        rfl
      · obtain ⟨t, ht⟩ := isPrefixOf_exists h1
        refine ⟨"https".data, t, Or.inr rfl, ?_⟩
        rw [if_pos (show isHttpList u = true from by
          unfold isHttpList
          rw [h1]
          simp), ← ht]
        rfl
    · refine ⟨"https".data, u, Or.inr rfl, ?_⟩
      rw [if_neg h]
      rfl
  exact ⟨sch, nlOf w, finalPathOf w, queryOf w, goodUrl_parse sch w hsch,
    by unfold normalizeChars; rw [hu, normBuild_scheme sch w hsch]⟩

/-- `normalize_url` is the identity on URLs assembled from components
satisfying the output invariants. -/
theorem normBuild_fix (sch nl p q : List Char) (h : GoodUrl sch nl p q) :
    normalizeChars (assembleUrl sch nl p q) = assembleUrl sch nl p q := by
  obtain ⟨pt, hp⟩ := h.path_cons
  have hw : assembleUrl sch nl p q
      = sch ++ "://".data ++ (nl ++ p ++ queryPart q) := by
    unfold assembleUrl
    simp [List.append_assoc]
  have hpre : isHttpList (assembleUrl sch nl p q) = true := by
    rw [hw]
    unfold isHttpList
    rcases h.scheme_http with rfl | rfl
    · rw [show ("http".data ++ "://".data ++ (nl ++ p ++ queryPart q))
          = httpColonSlash ++ (nl ++ p ++ queryPart q) from rfl,
        isPrefixOf_append_self]
      rfl
    · rw [show ("https".data ++ "://".data ++ (nl ++ p ++ queryPart q))
          = httpsColonSlash ++ (nl ++ p ++ queryPart q) from rfl,
        isPrefixOf_append_self]
      simp
  have hnl : nlOf (nl ++ p ++ queryPart q) = nl := by
    unfold nlOf
    rw [List.append_assoc, takeWhile_append_of_all _ (fun c hc => by
      simp [h.netloc_ok c hc]), hp]
    simp [List.takeWhile_cons, netlocStop]
  have hrest : restOf (nl ++ p ++ queryPart q) = p ++ queryPart q := by
    unfold restOf
    rw [List.append_assoc, dropWhile_append_of_all _ (fun c hc => by
      simp [h.netloc_ok c hc]), hp]
    simp [List.dropWhile_cons, netlocStop]
  have hq_all : ∀ c ∈ queryPart q, (c != '#') = true := by
    intro c hc
    unfold queryPart at hc
    by_cases hqe : q = []
    · rw [if_pos hqe] at hc
      simp at hc
    · rw [if_neg hqe] at hc
      rcases List.mem_cons.1 hc with rfl | hc
      · decide
      · simpa using h.query_ok c hc
  have hp_hash : ∀ c ∈ p, (c != '#') = true := fun c hc => by
    simpa using (h.path_ok c hc).2
  have hp_q : ∀ c ∈ p, (c != '?') = true := fun c hc => by
    simpa using (h.path_ok c hc).1
  have hpf : preFragOf (nl ++ p ++ queryPart q) = p ++ queryPart q := by
    unfold preFragOf
    rw [hrest]
    apply takeWhile_all
    intro c hc
    rcases List.mem_append.1 hc with hc | hc
    · exact hp_hash c hc
    · exact hq_all c hc
  have hpraw : prawOf (nl ++ p ++ queryPart q) = p := by
    unfold prawOf
    rw [hpf, takeWhile_append_of_all _ hp_q]
    unfold queryPart
    by_cases hqe : q = [] <;> simp [hqe, List.takeWhile_cons]
  have hquery : queryOf (nl ++ p ++ queryPart q) = q := by
    unfold queryOf
    rw [hpf, dropWhile_append_of_all _ hp_q]
    unfold queryPart
    by_cases hqe : q = [] <;> simp [hqe, List.dropWhile_cons]
  have hpath : pathOf (nl ++ p ++ queryPart q) = p := by
    unfold pathOf
    rw [hpraw]
    by_cases hsem : ';' ∈ p
    · rw [if_pos hsem]
      have hslash : '/' ∈ p := by rw [hp]; simp
      rw [splitParams_no_seg p hslash
        (fun hmem => h.seg_ok ';' hmem rfl)]
    · rw [if_neg hsem]
  have hfinal : finalPathOf (nl ++ p ++ queryPart q) = p := by
    unfold finalPathOf
    rw [hpath, if_neg (by rw [hp]; simp)]
  unfold normalizeChars
  rw [if_pos hpre]
  conv_lhs => rw [hw]
  rw [normBuild_scheme sch _ h.scheme_http, hnl, hfinal, hquery]

/-- The simulation between the sequential crawl loop and the one-worker
wave-batched loop: related states produce the same record sequence.  The
relation is: same records; the parallel frontier is the sequential frontier
restricted to unvisited URLs with later duplicates dropped; the parallel
visited set is the sequential one plus the queued URLs. -/
theorem crawl_parallel_sim (env : Env) (us : Bool)
    (sel : List (String × String)) (rd : Bool) (md : Nat) :
    ∀ (fuel : Nat) (s : CState) (p : PState),
    DepthLE md s.toVisit →
    (∀ x, x ∈ p.visited ↔ x ∈ s.visited ∨ x ∈ p.toVisit.map Prod.fst) →
    p.toVisit = dedupKeys (s.toVisit.filter (fun t => t.1 ∉ s.visited)) →
    p.allData = s.allData →
    ∀ out, crawlLoop env us sel rd md fuel s = some out →
    parallelLoop env us sel rd md 1 fuel p = some out.allData := by
  intro fuel
  induction fuel with
  | zero =>
    intro s p hdep hvis hq ha out hrun
    by_cases hnil : s.toVisit = []
    · rw [crawlLoop_nil env us sel rd md 0 hnil] at hrun
      cases Option.some.inj hrun
      have hpn : p.toVisit = [] := by
        rw [hq, hnil]
        simp [dedupKeys_nil]
      rw [parallelLoop_nil env us sel rd md 1 0 hpn, ha]
    · rw [crawlLoop_zero env us sel rd md hnil] at hrun
      cases hrun
  | succ n ih =>
    intro s p hdep hvis hq ha out hrun
    obtain ⟨ptv, pvis, pdat⟩ := p
    dsimp only at hvis hq ha ⊢
    by_cases hnil : s.toVisit = []
    · rw [crawlLoop_nil env us sel rd md (n + 1) hnil] at hrun
      cases Option.some.inj hrun
      have hpn : ptv = [] := by
        rw [hq, hnil]
        simp [dedupKeys_nil]
      subst hpn
      rw [parallelLoop_nil env us sel rd md 1 (n + 1) rfl]
      rw [ha]
    · obtain ⟨⟨u, d⟩, rest, hcons⟩ :
          ∃ t rest2, s.toVisit = t :: rest2 := by
        cases hc : s.toVisit with
        | nil => exact absurd hc hnil
        | cons t rest2 => exact ⟨t, rest2, rfl⟩
      have hd : d ≤ md := hdep (u, d) (by rw [hcons]; simp)
      rw [crawlLoop_succ env us sel rd md n hnil] at hrun
      by_cases hv : u ∈ s.visited
      · -- the sequential loop skips an already-visited URL; the parallel
        -- loop never queued it, so it takes no step at all
        rw [crawlStep_skip env us sel rd md hcons (Or.inl hv)] at hrun
        have hq' : ptv = dedupKeys
            (rest.filter (fun t => t.1 ∉ s.visited)) := by
          rw [hq, hcons]
          congr 1
          simp [List.filter_cons, hv]
        have hres := ih { s with toVisit := rest } ⟨ptv, pvis, pdat⟩
          (fun t ht => hdep t (by
            rw [hcons]
            exact List.mem_cons_of_mem _ ht))
          hvis hq' ha out hrun
        exact parallelLoop_mono env us sel rd md 1 n _ _ hres
      · -- the sequential loop processes a fresh URL; so does the parallel
        -- loop, whose frontier starts with the same task
        have hqcons : ptv = (u, d) ::
            dedupKeys ((rest.filter (fun t => t.1 ∉ s.visited)).filter
              (fun t2 => t2.1 ≠ u)) := by
          rw [hq, hcons, List.filter_cons,
            if_pos (show decide (((u, d) : String × Nat).1 ∉ s.visited)
              = true by simpa using hv),
            dedupKeys_cons]
        have hF : (rest.filter (fun t => t.1 ∉ s.visited)).filter
              (fun t2 => t2.1 ≠ u)
            = rest.filter (fun t => t.1 ∉ u :: s.visited) := by
          rw [List.filter_filter]
          apply List.filter_congr
          intro t2 ht2
          rw [← Bool.decide_and, decide_eq_decide]
          simp [List.mem_cons, not_or, and_comm]
        subst hqcons
        set tailP := dedupKeys ((rest.filter
          (fun t => t.1 ∉ s.visited)).filter (fun t2 => t2.1 ≠ u))
          with htailP
        have htail2 : tailP = dedupKeys
            (rest.filter (fun t => t.1 ∉ u :: s.visited)) := by
          rw [htailP, hF]
        have hkeys_tail : ∀ x, x ∈ tailP.map Prod.fst ↔
            x ∈ (rest.filter
              (fun t => t.1 ∉ u :: s.visited)).map Prod.fst := by
          intro x
          rw [htail2]
          exact mem_keys_dedupKeys _ _ le_rfl x
        have hvisP : ∀ x, x ∈ pvis ↔
            x ∈ u :: s.visited ∨ x ∈ tailP.map Prod.fst := by
          intro x
          rw [hvis x]
          simp only [List.map_cons, List.mem_cons]
          tauto
        by_cases hlt : d < md
        · -- below the depth bound: both sides extract links
          rw [crawlStep_process_lt env us sel rd md hcons hv hlt] at hrun
          have hpu : processUrl env us sel rd md pvis (u, d) =
              (some ((if sel ≠ [] then extract_data env us u sel
                  else none),
                (enqueueLinks (d + 1)
                  (extract_links env us u rd) pvis).1),
                (enqueueLinks (d + 1)
                  (extract_links env us u rd) pvis).2) := by
            simp [processUrl, Nat.not_lt.2 hd, hlt]
          rw [parallelLoop_one_proc env us sel rd md n (u, d) tailP pvis
            _ pdat _ _ hpu]
          -- invariants for the successor states
          have hdep' : DepthLE md (rest ++
              ((extract_links env us u rd).filter
                (fun l => l ∉ u :: s.visited)).map
                (fun l => (l, d + 1))) := by
            intro t ht
            rcases List.mem_append.1 ht with h2 | h2
            · exact hdep t (by
                rw [hcons]
                exact List.mem_cons_of_mem _ h2)
            · obtain ⟨l, _, rfl⟩ := List.mem_map.1 h2
              exact hlt
          have hnewfix : (((extract_links env us u rd).filter
                (fun l => l ∉ u :: s.visited)).map
                (fun l => (l, d + 1))).filter
                  (fun t => t.1 ∉ u :: s.visited)
              = ((extract_links env us u rd).filter
                (fun l => l ∉ u :: s.visited)).map
                (fun l => (l, d + 1)) := by
            apply List.filter_eq_self.2
            intro t ht
            obtain ⟨l, hl, rfl⟩ := List.mem_map.1 ht
            have hmem := (List.mem_filter.1 hl).2
            simpa using hmem
          have hqueue' : tailP ++ (enqueueLinks (d + 1)
                (extract_links env us u rd) pvis).1
              = dedupKeys ((rest ++
                ((extract_links env us u rd).filter
                  (fun l => l ∉ u :: s.visited)).map
                  (fun l => (l, d + 1))).filter
                (fun t => t.1 ∉ u :: s.visited)) := by
            rw [List.filter_append, hnewfix,
              dedupKeys_append (rest.filter
                (fun t => t.1 ∉ u :: s.visited)).length _ le_rfl,
              ← htail2]
            congr 1
            rw [enqueueLinks_fst]
            congr 1
            rw [filter_map_tag (d + 1) _
              (fun x => decide (x ∉ (rest.filter
                (fun t => t.1 ∉ u :: s.visited)).map Prod.fst))]
            congr 1
            rw [List.filter_filter]
            apply List.filter_congr
            intro a hha
            rw [← Bool.decide_and, decide_eq_decide]
            rw [hvisP a, hkeys_tail a]
            tauto
          have hvis' : ∀ x, x ∈ (enqueueLinks (d + 1)
                (extract_links env us u rd) pvis).2 ↔
              x ∈ u :: s.visited ∨ x ∈ (tailP ++ (enqueueLinks (d + 1)
                (extract_links env us u rd) pvis).1).map Prod.fst := by
            intro x
            rw [enqueueLinks_snd, List.map_append, List.mem_append]
            rw [hvisP x]
            tauto
          have hdata' : pdat ++ (if sel ≠ [] then
                extract_data env us u sel else none).toList
              = (match (if sel ≠ [] then extract_data env us u sel
                  else none) with
                | some dd => s.allData ++ [dd]
                | none => s.allData) := by
            rw [match_append_toList, ha]
          exact ih _ ⟨_, _, _⟩ hdep' hvis' hqueue' hdata' out hrun
        · -- at the depth bound: neither side extracts links
          rw [crawlStep_process_ge env us sel rd md hcons hv hd hlt]
            at hrun
          have hpu : processUrl env us sel rd md pvis (u, d) =
              (some ((if sel ≠ [] then extract_data env us u sel
                else none), []), pvis) := by
            simp [processUrl, Nat.not_lt.2 hd, hlt]
          rw [parallelLoop_one_proc env us sel rd md n (u, d) tailP pvis
            _ pdat _ _ hpu]
          rw [List.append_nil]
          have hdep' : DepthLE md rest := fun t ht => hdep t (by
            rw [hcons]
            exact List.mem_cons_of_mem _ ht)
          have hdata' : pdat ++ (if sel ≠ [] then
                extract_data env us u sel else none).toList
              = (match (if sel ≠ [] then extract_data env us u sel
                  else none) with
                | some dd => s.allData ++ [dd]
                | none => s.allData) := by
            rw [match_append_toList, ha]
          exact ih _ ⟨_, _, _⟩ hdep' hvisP htail2 hdata' out hrun

end Lemmas

open Lemmas

/-! ## Claims -/

/-- C4: if the fetch of a URL fails, that URL is nevertheless added to the
visited set, the extractor returns `None` so no record is produced for it,
and the traversal continues with the remaining queued tasks instead of
aborting. -/
theorem claim_C4 (env : Env) (us : Bool) (sel : List (String × String))
    (rd : Bool) (md : Nat) (s : CState) {url : String} {depth : Nat}
    {rest : List (String × Nat)}
    (hq : s.toVisit = (url, depth) :: rest) (hv : url ∉ s.visited)
    (hd : depth ≤ md) (hf : get_page_content env us url = none) :
    extract_data env us url sel = none ∧
    (crawlStep env us sel rd md s).visited = url :: s.visited ∧
    (crawlStep env us sel rd md s).allData = s.allData ∧
    (crawlStep env us sel rd md s).toVisit = rest := by
  have hed : extract_data env us url sel = none := by
    simp [extract_data, hf]
  have hel : extract_links env us url rd = [] := by
    simp [extract_links, hf]
  by_cases hlt : depth < md
  · rw [crawlStep_process_lt env us sel rd md hq hv hlt]
    simp [hed, hel]
  · rw [crawlStep_process_ge env us sel rd md hq hv hd hlt]
    simp [hed]

/-- Witness for C4: in `envA`, `https://a/c` answers status 500. -/
theorem claim_C4_witness :
    extract_data envA false "https://a/c" [("title", "h1")] = none ∧
    (crawlStep envA false [("title", "h1")] true 1
      ⟨[("https://a/c", 1), ("https://a/b", 1)], ["https://a"], [], [],
        []⟩).visited = ["https://a/c", "https://a"] ∧
    (crawlStep envA false [("title", "h1")] true 1
      ⟨[("https://a/c", 1), ("https://a/b", 1)], ["https://a"], [], [],
        []⟩).allData = [] ∧
    (crawlStep envA false [("title", "h1")] true 1
      ⟨[("https://a/c", 1), ("https://a/b", 1)], ["https://a"], [], [],
        []⟩).toVisit = [("https://a/b", 1)] :=
  claim_C4 envA false [("title", "h1")] true 1
    ⟨[("https://a/c", 1), ("https://a/b", 1)], ["https://a"], [], [], []⟩
    rfl (by decide) (by decide) rfl

/-- C5: for each field of the selector map (the Python dict guarantees
duplicate-free keys), zero selector matches store `None`, exactly one match
stores the bare trimmed string, and two or more matches store the ordered
list of trimmed strings. -/
theorem claim_C5 {env : Env} {us : Bool} {url content f sel : String}
    {selectors : List (String × String)} {r : Record}
    (h1 : get_page_content env us url = some content)
    (h2 : (f, sel) ∈ selectors)
    (h3 : (selectors.map Prod.fst).Nodup)
    (h4 : extract_data env us url selectors = some r) :
    dictGet r f = some (match (env.parse content).select sel with
      | [] => Value.null
      | [t] => Value.str t
      | t1 :: t2 :: ts => Value.strs (t1 :: t2 :: ts)) := by
  have h4' : (selectors.foldl
      (fun d fs => dictInsert d fs.1 (selectValue (env.parse content) fs.2))
      [("url", Value.str url)]) = r := by
    simp only [extract_data, h1] at h4
    exact Option.some.inj h4
  have hmain := dictGet_fold_mem (env.parse content) selectors
    [("url", Value.str url)] f sel h2 h3
  rw [h4'] at hmain
  rw [hmain]
  cases hc : (env.parse content).select sel with
  | nil => simp [selectValue, hc]
  | cons t1 tl =>
    cases tl with
    | nil => simp [selectValue, hc]
    | cons t2 ts => simp [selectValue, hc]

/-- Witness for C5: the front page of `envA` has exactly one `h1` match. -/
theorem claim_C5_witness :
    dictGet [("url", Value.str "https://a"), ("title", Value.str "Hello")]
      "title" = some (Value.str "Hello") :=
  claim_C5
    (show get_page_content envA false "https://a" = some "PA" from rfl)
    (show ("title", "h1") ∈ [("title", "h1")] by decide)
    (show ([(("title" : String), ("h1" : String))].map Prod.fst).Nodup
      by decide)
    (show extract_data envA false "https://a" [("title", "h1")]
      = some [("url", Value.str "https://a"), ("title", Value.str "Hello")]
      from rfl)

/-- C6: in rendered mode, when navigation fails for a URL the fetcher falls
back to a plain HTTP fetch of that same URL, succeeding when the plain
fetch answers 200; no crawler state changes, so rendered mode stays enabled
and later URLs are still tried through the renderer first. -/
theorem claim_C6 (env : Env) (url body : String)
    (h1 : env.selenium url = none) (h2 : env.http url = some (200, body)) :
    get_page_content_s env ⟨true⟩ url = (some body, ⟨true⟩) ∧
    ∀ url2 c, env.selenium url2 = some c →
      get_page_content_s env ⟨true⟩ url2 = (some c, ⟨true⟩) := by
  constructor
  · simp [get_page_content_s, h1, h2]
  · intro url2 c hc
    simp [get_page_content_s, hc]

/-- Witness for C6: in `envA` the renderer always fails and `https://a`
answers 200. -/
theorem claim_C6_witness :
    get_page_content_s envA ⟨true⟩ "https://a" = (some "PA", ⟨true⟩) :=
  (claim_C6 envA "https://a" "PA" rfl rfl).1

/-- C7: every URL returned by link discovery starts with `http://` or
`https://`, and under domain restriction its netloc equals the netloc of the
page it was found on (exact string comparison), so no cross-host link is
ever returned for enqueueing. -/
theorem claim_C7 (env : Env) (us : Bool) (url : String) (rd : Bool)
    {l : String} (h : l ∈ extract_links env us url rd) :
    isHttpUrl l = true ∧ (rd = true → urlNetloc l = urlNetloc url) := by
  unfold extract_links at h
  cases hc : get_page_content env us url with
  | none =>
    rw [hc] at h
    simp at h
  | some content =>
    rw [hc] at h
    simp only [List.mem_filterMap] at h
    obtain ⟨href, _, hif⟩ := h
    split_ifs at hif with hcond
    obtain rfl : env.urljoin url href = l := Option.some.inj hif
    refine ⟨hcond.1, fun hrd => ?_⟩
    exact hcond.2 hrd

/-- Witness for C7: the same-host link of the `envA` front page. -/
theorem claim_C7_witness :
    isHttpUrl "https://a/b" = true ∧
    (true = true → urlNetloc "https://a/b" = urlNetloc "https://a") :=
  claim_C7 envA false "https://a" true (by decide)

/-- Counterexample to C1 as stated: in the `envA` run the start URL is
passed to the page-content fetcher twice — once by `extract_data` and once
by `extract_links` — so "no URL is fetched more than once per run" fails. -/
theorem claim_C1_cex :
    (crawl envA false [] "https://a" 1 [("title", "h1")] true 10).map
      (fun s => s.fetched.count "https://a") = some 2 ∧ ¬ (2 ≤ 1) :=
  ⟨rfl, by decide⟩

/-- C1 (amended): per run from a fresh crawler, the visited set stays
duplicate-free (each URL enters it exactly once however often it is
discovered), no URL is dequeued-and-processed more than once, and no URL is
passed to the page-content fetcher more than twice (once for data
extraction, once for link discovery). -/
theorem claim_C1_amended (env : Env) (us : Bool)
    (sel : List (String × String)) (rd : Bool) (md : Nat)
    (startUrl : String) (fuel : Nat) (out : CState)
    (h : crawl env us [] startUrl md sel rd fuel = some out) :
    out.visited.Nodup ∧ (out.processedTasks.map Prod.fst).Nodup ∧
    ∀ u, out.fetched.count u ≤ 2 := by
  have hinv : VisitInv ⟨[(startUrl, 0)], [], [], [], []⟩ := by
    refine ⟨List.nodup_nil, List.nodup_nil, ?_, ?_, ?_⟩ <;> simp
  have hout := visitInv_run env us sel rd md fuel _ out hinv h
  exact ⟨hout.1, hout.2.1, hout.2.2.2.1⟩

/-- Witness for the amended C1, on the completed `envA` run. -/
theorem claim_C1_amended_witness :
    (["https://a/c", "https://a/b", "https://a"] : List String).Nodup :=
  (claim_C1_amended envA false [("title", "h1")] true 1 "https://a" 10
    ⟨[], ["https://a/c", "https://a/b", "https://a"],
      [[("url", Value.str "https://a"), ("title", Value.str "Hello")],
       [("url", Value.str "https://a/b"),
        ("title", Value.strs ["x", "y"])]],
      ["https://a", "https://a", "https://a/b", "https://a/c"],
      [("https://a", 0), ("https://a/b", 1), ("https://a/c", 1)]⟩
    rfl).1

/-- Counterexample to C2 as stated: `https://a/` normalizes identically to
the already-visited `https://a`, yet the `envB` run fetches it anyway — the
engine deduplicates by raw string equality, not by normalization, and it
seeds the queue with the start URL as given. -/
theorem claim_C2_cex :
    (crawl envB false [] "https://a" 1 [("t", "q")] true 5).map
      CState.fetched = some ["https://a", "https://a", "https://a/"] ∧
    normalize_url "https://a/" = normalize_url "https://a" ∧
    ("https://a/" : String) ≠ "https://a" :=
  ⟨rfl, rfl, by decide⟩

/-- C2 (amended): the traversal engine seeds its queue with the raw start
URL exactly as given (callers such as the CLI may normalize beforehand, the
engine does not), and deduplicates by exact string equality: a dequeued URL
string that is already in the visited set is skipped without any fetch,
while distinct strings are distinct URLs even when their normalizations
agree. -/
theorem claim_C2_amended (env : Env) (us : Bool)
    (sel : List (String × String)) (rd : Bool) (md : Nat) (s : CState)
    {url : String} {depth : Nat} {rest : List (String × Nat)}
    (startUrl : String) (v : List String) (fuel : Nat)
    (hq : s.toVisit = (url, depth) :: rest) (hv : url ∈ s.visited) :
    crawl env us v startUrl md sel rd fuel =
      crawlLoop env us sel rd md fuel ⟨[(startUrl, 0)], v, [], [], []⟩ ∧
    crawlStep env us sel rd md s = { s with toVisit := rest } :=
  ⟨rfl, crawlStep_skip env us sel rd md hq (Or.inl hv)⟩

/-- Witness for the amended C2. -/
theorem claim_C2_amended_witness :
    crawl envB false ["p"] "q" 2 [] true 3 =
      crawlLoop envB false [] true 2 3 ⟨[("q", 0)], ["p"], [], [], []⟩ ∧
    crawlStep envB false [] true 2
        ⟨[("https://a", 0)], ["https://a"], [], [], []⟩ =
      ⟨[], ["https://a"], [], [], []⟩ :=
  claim_C2_amended envB false [] true 2
    ⟨[("https://a", 0)], ["https://a"], [], [], []⟩ "q" ["p"] 3 rfl
    (by decide)

/-- C3: for a crawl run with bound `max_depth`, every record-producing task
(in fact every processed task) has depth at most `max_depth`; every frontier
that the run can reach from the seed contains only tasks of depth at most
`max_depth`, so no task of depth `max_depth + 1` is ever created; and at the
boundary the step dequeues without invoking link discovery, in both the
sequential path and `parallel_crawl`'s `process_url`. -/
theorem claim_C3 (env : Env) (us : Bool) (sel : List (String × String))
    (rd : Bool) (md : Nat) (startUrl : String) (v : List String)
    (fuel : Nat) (out : CState)
    (h : crawl env us v startUrl md sel rd fuel = some out) :
    (∀ t ∈ out.processedTasks, t.2 ≤ md) ∧
    (∀ n, DepthLE md ((crawlStep env us sel rd md)^[n]
      ⟨[(startUrl, 0)], v, [], [], []⟩).toVisit) ∧
    (∀ (s2 : CState) (url : String) (rest2 : List (String × Nat)),
      s2.toVisit = (url, md) :: rest2 →
      (crawlStep env us sel rd md s2).toVisit = rest2) ∧
    (∀ (visited2 : List String) (url : String),
      processUrl env us sel rd md visited2 (url, md) =
        (some ((if sel ≠ [] then extract_data env us url sel else none),
          []), visited2)) := by
  have hseed : DepthLE md [(startUrl, 0)] := by
    intro t ht
    simp only [List.mem_singleton] at ht
    rw [ht]
    exact Nat.zero_le md
  refine ⟨?_, ?_, ?_, ?_⟩
  · exact processed_run env us sel rd md fuel _ out hseed (by simp) h
  · exact depthLE_iterate env us sel rd md _ hseed
  · intro s2 url rest2 hq2
    exact crawlStep_boundary env us sel rd md s2 hq2
  · intro visited2 url
    exact processUrl_boundary env us sel rd md visited2 url

/-- Witness for C3: at the boundary of the `envA` run the frontier only
shrinks. -/
theorem claim_C3_witness :
    (crawlStep envA false [("title", "h1")] true 1
      ⟨[("https://a/b", 1)], ["https://a"], [], [], []⟩).toVisit = [] :=
  (claim_C3 envA false [("title", "h1")] true 1 "https://a" [] 10
    ⟨[], ["https://a/c", "https://a/b", "https://a"],
      [[("url", Value.str "https://a"), ("title", Value.str "Hello")],
       [("url", Value.str "https://a/b"),
        ("title", Value.strs ["x", "y"])]],
      ["https://a", "https://a", "https://a/b", "https://a/c"],
      [("https://a", 0), ("https://a/b", 1), ("https://a/c", 1)]⟩
    rfl).2.2.1 ⟨[("https://a/b", 1)], ["https://a"], [], [], []⟩
    "https://a/b" [] rfl

/-- Counterexample to C8 as stated: a first `crawl` run on `envC` leaves
`https://s` in the instance-level visited set, and a second run on the same
crawler object then produces no records, unlike the identical run on a
fresh object — the result does depend on the leftover visited set. -/
theorem claim_C8_cex :
    (crawl envC false [] "https://s" 0 [("t", "q")] true 2).map
      CState.visited = some ["https://s"] ∧
    (crawl envC false ["https://s"] "https://s" 0 [("t", "q")] true 2).map
      CState.allData = some [] ∧
    (crawl envC false [] "https://s" 0 [("t", "q")] true 2).map
      CState.allData
      = some [[("url", Value.str "https://s"), ("t", Value.str "x")]] ∧
    ([] : List Record)
      ≠ [[("url", Value.str "https://s"), ("t", Value.str "x")]] :=
  ⟨rfl, rfl, rfl, by decide⟩

/-- C8 (amended): `parallel_crawl` owns a fresh run-local visited set and
queue, but `crawl` shares the instance attribute `self.visited_urls` across
runs: a start URL already visited by an earlier run is skipped outright
(the run returns no records and leaves the set unchanged), and whatever an
earlier run left in the set persists through any later completed run. -/
theorem claim_C8_amended (env : Env) (us : Bool) (v : List String)
    (startUrl : String) (md : Nat) (sel : List (String × String))
    (rd : Bool) (fuel : Nat) (h : startUrl ∈ v) :
    crawl env us v startUrl md sel rd (fuel + 1) =
      some ⟨[], v, [], [], []⟩ ∧
    ∀ fuel2 v2 out, crawl env us v2 startUrl md sel rd fuel2 = some out →
      ∀ x ∈ v2, x ∈ out.visited := by
  constructor
  · unfold crawl
    rw [crawlLoop_succ env us sel rd md fuel (by simp),
      crawlStep_skip env us sel rd md rfl (Or.inl h)]
    exact crawlLoop_nil env us sel rd md fuel rfl
  · intro fuel2 v2 out hrun x hx
    exact visited_mono_run env us sel rd md fuel2 _ out hrun x hx

/-- Witness for the amended C8. -/
theorem claim_C8_amended_witness :
    crawl envC false ["https://s"] "https://s" 0 [("t", "q")] true 2 =
      some ⟨[], ["https://s"], [], [], []⟩ :=
  (claim_C8_amended envC false ["https://s"] "https://s" 0 [("t", "q")]
    true 1 (by decide)).1

/-- C9: URL normalization is idempotent — normalizing an already-normalized
URL returns it unchanged, for every input string. -/
theorem claim_C9 (u : String) :
    normalize_url (normalize_url u) = normalize_url u := by
  obtain ⟨sch, nl, p, q, hgood, heq⟩ := normalizeChars_shape u.data
  have hcore : normalizeChars (normalizeChars u.data)
      = normalizeChars u.data := by
    rw [heq]
    exact normBuild_fix sch nl p q hgood
  unfold normalize_url
  exact congrArg String.mk hcore

/-- C10: with fetching a deterministic pure function and a freshly
constructed crawler, whenever the sequential `crawl` completes within some
fuel, `parallel_crawl` with `max_workers = 1` completes within the same
fuel and returns the identical sequence of extracted records, for every
start URL, depth bound, selector map and domain-restriction flag. -/
theorem claim_C10 (env : Env) (us : Bool) (sel : List (String × String))
    (rd : Bool) (md : Nat) (startUrl : String) (fuel : Nat) (out : CState)
    (h : crawl env us [] startUrl md sel rd fuel = some out) :
    parallel_crawl env us 1 startUrl md sel rd fuel = some out.allData := by
  have hdep : DepthLE md [((startUrl : String), (0 : Nat))] := by
    intro t ht
    simp only [List.mem_singleton] at ht
    rw [ht]
    exact Nat.zero_le md
  have hvis : ∀ x : String, x ∈ [startUrl] ↔ x ∈ ([] : List String) ∨
      x ∈ ([((startUrl : String), (0 : Nat))]).map Prod.fst := by
    intro x
    simp
  have hq : [((startUrl : String), (0 : Nat))] = dedupKeys
      (([((startUrl : String), (0 : Nat))]).filter
        (fun t => t.1 ∉ ([] : List String))) := by
    simp [List.filter_cons, dedupKeys_cons, dedupKeys_nil]
  exact crawl_parallel_sim env us sel rd md fuel
    ⟨[(startUrl, 0)], [], [], [], []⟩ ⟨[(startUrl, 0)], [startUrl], []⟩
    hdep hvis hq rfl out h

/-- Witness for C10 on the completed `envA` run. -/
theorem claim_C10_witness :
    parallel_crawl envA false 1 "https://a" 1 [("title", "h1")] true 10
      = some
        [[("url", Value.str "https://a"), ("title", Value.str "Hello")],
         [("url", Value.str "https://a/b"),
          ("title", Value.strs ["x", "y"])]] :=
  claim_C10 envA false [("title", "h1")] true 1 "https://a" 10
    ⟨[], ["https://a/c", "https://a/b", "https://a"],
      [[("url", Value.str "https://a"), ("title", Value.str "Hello")],
       [("url", Value.str "https://a/b"),
        ("title", Value.strs ["x", "y"])]],
      ["https://a", "https://a", "https://a/b", "https://a/c"],
      [("https://a", 0), ("https://a/b", 1), ("https://a/c", 1)]⟩
    rfl

end WebData
